import Mathlib

/-!
The build script `magefile.go` of go-mage and its package `buildvars`.

A shallow embedding of the task runner of `magefile.go` and of the metadata
accessors of `pkg/buildvars/buildvars.go`, with the properties of tool
resolution, cleaning and naming stated and proved over it.

Conventions.

* Go strings are Lean strings; the functions of `path/filepath` work on the
  list of characters of a string.  The host is a Unix host: the separator is
  the slash and the backslash is an escape character of glob patterns.
* The filesystem is a finite list of paths, one for every file and every
  directory that exists; a listed path `q` denotes the entry `Clean q`.
* Every call that leaves the process (a command, an HTTP request) and every
  operation of the operating system that can fail is answered by the `Host`,
  a record of functions; what has been attempted is appended to the trace of
  the `World`.
* A Go function returning `error` returns a `Ret`: `ok` is the nil error,
  `err` a non-nil error, `panic` a run-time panic.
-/

set_option autoImplicit false
set_option maxRecDepth 20000

deriving instance DecidableEq for Except

namespace GoMage

/-! ## Strings -/

/-- Strict lexicographic order on character lists by code point, the order
in which Go sorts strings. -/
def ltChars : List Char → List Char → Bool
  | [], [] => false
  | [], _ :: _ => true
  | _ :: _, [] => false
  | a :: as, b :: bs =>
    if a.toNat < b.toNat then true
    else if b.toNat < a.toNat then false
    else ltChars as bs

/-- Insertion of a string into a sorted list of strings. -/
def insertSorted (x : String) : List String → List String
  | [] => [x]
  | y :: ys => if ltChars y.data x.data then y :: insertSorted x ys else x :: y :: ys

/-- Sorting of a list of strings, as `slices.Sort` does. -/
def sortStrings : List String → List String
  | [] => []
  | x :: xs => insertSorted x (sortStrings xs)

/-- Removal of repeated strings, keeping the first occurrence. -/
def dedupStrings : List String → List String
  | [] => []
  | x :: xs => x :: (dedupStrings xs).filter (fun y => y ≠ x)

/-- The string `suf` is a suffix of the string `s` (Go `strings.HasSuffix`). -/
def HasSuffix (s suf : String) : Prop := suf.data <:+ s.data

instance (s suf : String) : Decidable (HasSuffix s suf) := by
  unfold HasSuffix; infer_instance

/-! ## The package `path/filepath` on a Unix host -/

namespace filepath

/-- The components of a path: the pieces between separators. -/
def splitSep : List Char → List (List Char)
  | [] => [[]]
  | c :: cs =>
    match splitSep cs with
    | [] => [[c]]
    | x :: xs => if c = '/' then [] :: x :: xs else (c :: x) :: xs

/-- Components joined by the separator. -/
def joinSep : List (List Char) → List Char
  | [] => []
  | [x] => x
  | x :: y :: ys => x ++ '/' :: joinSep (y :: ys)

/-- One step of `Clean`: the effect of the next component on the components
kept so far.  Empty components and `.` are dropped; `..` removes the
component before it, unless there is none (then it is dropped in a rooted
path and kept otherwise) or that one is itself `..`. -/
def cleanStep (rooted : Bool) (kept : List (List Char)) (comp : List Char) :
    List (List Char) :=
  if comp = [] ∨ comp = ['.'] then kept
  else if comp = ['.', '.'] then
    match kept.getLast? with
    | none => if rooted then kept else kept ++ [comp]
    | some top => if top = ['.', '.'] then kept ++ [comp] else kept.dropLast
  else kept ++ [comp]

/-- The elements of a path after cleaning, and whether the path is rooted:
the reading of a path that `Clean` prints. -/
def parsePath (cs : List Char) : Bool × List (List Char) :=
  (cs.head? = some '/', (splitSep cs).foldl (cleanStep (cs.head? = some '/')) [])

/-- The path with the given elements. -/
def renderPath (p : Bool × List (List Char)) : List Char :=
  let out := if p.1 then '/' :: joinSep p.2 else joinSep p.2
  if out = [] then ['.'] else out

/-- Go `filepath.Clean` on character lists. -/
def cleanChars (cs : List Char) : List Char := renderPath (parsePath cs)

/-- Go `filepath.Clean`: the shortest path equivalent to `path` by purely
lexical processing. -/
def Clean (path : String) : String := ⟨cleanChars path.data⟩

/-- Go `strings.Join` with the separator between the elements. -/
def joinStrings : List String → List Char
  | [] => []
  | [x] => x.data
  | x :: y :: ys => x.data ++ '/' :: joinStrings (y :: ys)

/-- Go `filepath.Join`: the elements from the first non-empty one on are
joined by the separator and the result is cleaned; the empty string when
every element is empty. -/
def Join : List String → String
  | [] => ""
  | e :: es => if e = "" then Join es else ⟨cleanChars (joinStrings (e :: es))⟩

/-- The split of a path right after its last separator, on character
lists: the directory part (with the separator) and the file part. -/
def splitLast : List Char → List Char × List Char
  | [] => ([], [])
  | c :: cs =>
    match splitLast cs with
    | ([], f) => if c = '/' then (['/'], f) else ([], c :: f)
    | (d, f) => (c :: d, f)

/-- Go `filepath.Split`. -/
def Split (path : String) : String × String :=
  (⟨(splitLast path.data).1⟩, ⟨(splitLast path.data).2⟩)

/-- Go `filepath.Dir`: all but the last element of the path, cleaned. -/
def Dir (path : String) : String := ⟨cleanChars (splitLast path.data).1⟩

/-! ### Patterns -/

/-- The terms of a shell file name pattern. -/
inductive Term where
  | star : Term
  | any : Term
  | lit (c : Char) : Term
  | cls (negated : Bool) (ranges : List (Char × Char)) : Term
deriving DecidableEq, Repr

/-- The states of the pattern reader. -/
inductive Scan where
  | top : Scan
  | esc : Scan
  | clsStart : Scan
  | cls (negated : Bool) (ranges : List (Char × Char)) : Scan
  | loEsc (negated : Bool) (ranges : List (Char × Char)) : Scan
  | lo (negated : Bool) (ranges : List (Char × Char)) (lo : Char) : Scan
  | dash (negated : Bool) (ranges : List (Char × Char)) (lo : Char) : Scan
  | hiEsc (negated : Bool) (ranges : List (Char × Char)) (lo : Char) : Scan
deriving DecidableEq, Repr

/-- The reader of patterns: `none` is Go `ErrBadPattern`.  Outside a class
`*`, `?` and `[` are special and a backslash escapes the next character; a
class is a non-empty sequence of ranges `lo` or `lo-hi`, optionally negated
by a leading `^`, closed by `]`; in a class a range end may not be an
unescaped `-` or `]`, and the pattern may not end inside a class or right
after a backslash. -/
def scanTerms : Scan → List Char → Option (List Term)
  | .top, [] => some []
  | .top, c :: cs =>
    if c = '*' then (scanTerms .top cs).map (Term.star :: ·)
    else if c = '?' then (scanTerms .top cs).map (Term.any :: ·)
    else if c = '[' then scanTerms .clsStart cs
    else if c = '\\' then scanTerms .esc cs
    else (scanTerms .top cs).map (Term.lit c :: ·)
  | .esc, [] => none
  | .esc, c :: cs => (scanTerms .top cs).map (Term.lit c :: ·)
  | .clsStart, [] => none
  | .clsStart, c :: cs =>
    if c = '^' then scanTerms (.cls true []) cs
    else if c = '-' ∨ c = ']' then none
    else if c = '\\' then scanTerms (.loEsc false []) cs
    else scanTerms (.lo false [] c) cs
  | .cls _ _, [] => none
  | .cls n rs, c :: cs =>
    if c = ']' then
      if rs = [] then none else (scanTerms .top cs).map (Term.cls n rs :: ·)
    else if c = '-' then none
    else if c = '\\' then scanTerms (.loEsc n rs) cs
    else scanTerms (.lo n rs c) cs
  | .loEsc _ _, [] => none
  | .loEsc n rs, c :: cs => scanTerms (.lo n rs c) cs
  | .lo _ _ _, [] => none
  | .lo n rs l, c :: cs =>
    if c = '-' then scanTerms (.dash n rs l) cs
    else if c = ']' then (scanTerms .top cs).map (Term.cls n (rs ++ [(l, l)]) :: ·)
    else if c = '\\' then scanTerms (.loEsc n (rs ++ [(l, l)])) cs
    else scanTerms (.lo n (rs ++ [(l, l)]) c) cs
  | .dash _ _ _, [] => none
  | .dash n rs l, c :: cs =>
    if c = '-' ∨ c = ']' then none
    else if c = '\\' then scanTerms (.hiEsc n rs l) cs
    else scanTerms (.cls n (rs ++ [(l, c)])) cs
  | .hiEsc _ _ _, [] => none
  | .hiEsc n rs l, c :: cs => scanTerms (.cls n (rs ++ [(l, c)])) cs

/-- Go `scanChunk`, on terms: the pattern cut into chunks, each with the
flag saying whether stars precede it. -/
def toChunks : List Term → List (Bool × List Term)
  | [] => []
  | .star :: ts =>
    match toChunks ts with
    | [] => [(true, [])]
    | (_, ch) :: rest => (true, ch) :: rest
  | t :: ts =>
    match toChunks ts with
    | [] => [(false, [t])]
    | (false, ch) :: rest => (false, t :: ch) :: rest
    | (true, ch) :: rest => (false, [t]) :: (true, ch) :: rest

/-- Go `matchChunk`: the chunk is matched at the start of `s`; the result
is the rest of `s`, or `none` when the chunk does not match there.  A class
may match the separator, `?` may not. -/
def matchChunk : List Term → List Char → Option (List Char)
  | [], s => some s
  | _ :: _, [] => none
  | .star :: _, _ :: _ => none
  | .any :: ts, c :: s => if c = '/' then none else matchChunk ts s
  | .lit a :: ts, c :: s => if a = c then matchChunk ts s else none
  | .cls n rs :: ts, c :: s =>
    if (rs.any (fun r => r.1.toNat ≤ c.toNat ∧ c.toNat ≤ r.2.toNat)) = n then none
    else matchChunk ts s

/-- The search of Go `Match` after a star: the first position, reached by
skipping characters other than the separator, at which the chunk matches
(and, for the last chunk, matches up to the end of the name). -/
def skipTo (chunk : List Term) (isLast : Bool) : List Char → Option (List Char)
  | [] => none
  | c :: s =>
    if c = '/' then none
    else
      match matchChunk chunk s with
      | some t => if isLast ∧ t ≠ [] then skipTo chunk isLast s else some t
      | none => skipTo chunk isLast s

/-- The loop of Go `Match` over the chunks of a well-formed pattern. -/
def matchChunks : List (Bool × List Term) → List Char → Bool
  | [], name => name = []
  | (star, chunk) :: rest, name =>
    if star ∧ chunk = [] then !name.contains '/'
    else
      match matchChunk chunk name with
      | some t =>
        if t = [] ∨ rest ≠ [] then matchChunks rest t
        else if star then
          match skipTo chunk (rest = []) name with
          | some u => matchChunks rest u
          | none => false
        else false
      | none =>
        if star then
          match skipTo chunk (rest = []) name with
          | some u => matchChunks rest u
          | none => false
        else false

/-- Go `filepath.Match`: whether `name` matches the pattern; the only error
is the one of a malformed pattern. -/
def Match (pattern name : String) : Except String Bool :=
  match scanTerms .top pattern.data with
  | none => .error "syntax error in pattern"
  | some ts => .ok (matchChunks (toChunks ts) name.data)

/-- Go `hasMeta`: the path contains one of the magic characters of
patterns. -/
def hasMeta (path : String) : Bool :=
  path.data.any (fun c => c = '*' ∨ c = '?' ∨ c = '[' ∨ c = '\\')

/-- Go `cleanGlobPath`: the directory part of a pattern prepared for
globbing. -/
def cleanGlobPath (path : String) : String :=
  if path = "" then "."
  else if path = "/" then path
  else ⟨path.data.dropLast⟩

end filepath

/-! ## The filesystem -/

/-- The two paths name the same entry: they have the same elements. -/
def sameEntry (p q : String) : Bool :=
  filepath.parsePath p.data = filepath.parsePath q.data

/-- Go `os.Lstat` succeeds on `path`: some listed entry is `path`. -/
def lstat (files : List String) (path : String) : Bool :=
  path ≠ "" ∧ files.any (fun q => sameEntry q path)

/-- The name of the entry `q` in the directory `dir`, when `q` is an entry
of that directory. -/
def nameIn (dir q : String) : Option String :=
  match (filepath.parsePath q.data).2.getLast? with
  | none => none
  | some n =>
    if n ≠ ['.', '.'] ∧
        ((filepath.parsePath q.data).1, (filepath.parsePath q.data).2.dropLast)
          = filepath.parsePath dir.data
    then some ⟨n⟩ else none

/-- The names that `Readdirnames` reports for the directory `dir`, sorted:
the names of the listed entries of that directory. -/
def readDirNames (files : List String) (dir : String) : List String :=
  sortStrings (dedupStrings (files.filterMap (nameIn dir)))

/-- The filesystem without the entry `path`. -/
def without (files : List String) (path : String) : List String :=
  files.filter (fun q => !sameEntry q path)

namespace filepath

/-- Go `glob` of `path/filepath`: the entries of the directory `dir` whose
name matches `pattern`, appended to `acc` in the order of their names. -/
def globDir (files : List String) (dir pattern : String) (acc : List String) :
    Except String (List String) :=
  (readDirNames files dir).foldl (fun r n =>
    match r with
    | .error e => .error e
    | .ok m =>
      match Match pattern n with
      | .error e => .error e
      | .ok true => .ok (m ++ [Join [dir, n]])
      | .ok false => .ok m) (.ok acc)

/-- Go `globWithLimit`: `fuel` is what is left of the bound of ten thousand
nested directory patterns. -/
def globWithLimit (files : List String) : Nat → String → Except String (List String)
  | 0, _ => .error "syntax error in pattern"
  | fuel + 1, pattern =>
    match Match pattern "" with
    | .error e => .error e
    | .ok _ =>
      if !hasMeta pattern then
        if lstat files pattern then .ok [pattern] else .ok []
      else
        let dir := cleanGlobPath (Split pattern).1
        let file := (Split pattern).2
        if !hasMeta dir then globDir files dir file []
        else if dir = pattern then .error "syntax error in pattern"
        else
          match globWithLimit files fuel dir with
          | .error e => .error e
          | .ok m =>
            m.foldl (fun r d =>
              match r with
              | .error e => .error e
              | .ok found => globDir files d file found) (.ok [])

/-- Go `filepath.Glob`: the names of all files matching the pattern. -/
def Glob (files : List String) (pattern : String) : Except String (List String) :=
  globWithLimit files 10000 pattern

end filepath

/-! ## The host and the world -/

/-- What the process attempts on the outside: a command (with the
environment added to the inherited one, the arguments and the standard
input), an HTTP request, and the operations of the operating system that
change the filesystem. -/
inductive Event where
  | exec (env : List (String × String)) (cmd : String) (args : List String)
      (stdin : String) : Event
  | httpGet (url : String) : Event
  | mkdirAll (path : String) : Event
  | remove (path : String) : Event
  | removeAll (path : String) : Event
  | rename (src dst : String) : Event
deriving DecidableEq, Repr

/-- What a command leaves: its standard output (without the final
newline), its error if it failed, and the filesystem. -/
structure RunResult where
  stdout : String
  failure : Option String
  files : List String
deriving DecidableEq, Repr

/-- The answers of the outside.  `run` is the behaviour of commands on a
filesystem, `httpGet` the body served at an address, `osError` the refusal
of the operating system to carry out an operation (permissions, a directory
that is not empty, ...). -/
structure Host where
  getenv : String → String
  homeDir : Except String String
  runtimeGOOS : String
  runtimeGOARCH : String
  now : String
  run : List (String × String) → String → List String → String → List String → RunResult
  httpGet : String → Except String String
  osError : Event → List String → Option String

/-- The state that the tasks change: the filesystem and the trace of what
has been attempted. -/
structure World where
  files : List String
  trace : List Event
deriving DecidableEq, Repr

/-- The result of a Go function returning `error` (with a value when it
returns one more): the nil error, a non-nil error with its message, or a
panic. -/
inductive Ret (α : Type) where
  | ok (a : α) : Ret α
  | err (msg : String) : Ret α
  | panic (msg : String) : Ret α
deriving DecidableEq, Repr

/-- The Go function returned the nil error. -/
def Ret.isNil {α : Type} : Ret α → Bool
  | .ok _ => true
  | _ => false

/-- Reading a key of a map: the zero value when the key is missing, also
in the nil map. -/
def mapGet (m : Option (List (String × String))) (k : String) : String :=
  match m with
  | none => ""
  | some kvs => (kvs.lookup k).getD ""

/-- Writing a key of a map; `none` is the panic of a write to the nil
map. -/
def mapSet (m : Option (List (String × String))) (k v : String) :
    Option (List (String × String)) :=
  match m with
  | none => none
  | some kvs => some ((k, v) :: kvs.filter (fun kv => kv.1 ≠ k))

/-- Writing a key of a map that is known to be allocated. -/
def envSet (m : List (String × String)) (k v : String) : List (String × String) :=
  (k, v) :: m.filter (fun kv => kv.1 ≠ k)

/-! ### The operating system -/

namespace os

/-- Go `os.Getenv`. -/
def Getenv (h : Host) (key : String) : String := h.getenv key

/-- The directories that `MkdirAll` has to find or create: the path as it
is written, cut after each of its elements. -/
def ancestors (path : String) : List String :=
  ((filepath.splitSep path.data).inits.map
    (fun pre => String.mk (filepath.joinSep pre))).filter (fun s => s ≠ "")

/-- Go `os.MkdirAll`: the directory and its parents, as the path names
them, are created where they are missing. -/
def MkdirAll (h : Host) (path : String) (w : World) : Option String × World :=
  let w1 : World := { w with trace := w.trace ++ [Event.mkdirAll path] }
  match h.osError (Event.mkdirAll path) w.files with
  | some e => (some e, w1)
  | none =>
    if path = "" then (some "mkdir : no such file or directory", w1)
    else
      (none, { w1 with files :=
        (ancestors path).foldl (fun fs d => if lstat fs d then fs else fs ++ [d]) w.files })

/-- Go `os.Remove`: the named file or empty directory is removed. -/
def Remove (h : Host) (path : String) (w : World) : Option String × World :=
  let w1 : World := { w with trace := w.trace ++ [Event.remove path] }
  match h.osError (Event.remove path) w.files with
  | some e => (some e, w1)
  | none =>
    if lstat w.files path then (none, { w1 with files := without w.files path })
    else (some ("remove " ++ path ++ ": no such file or directory"), w1)

/-- Go `os.Rename`: the entry `src` becomes the entry `dst`, replacing it
if it exists. -/
def Rename (h : Host) (src dst : String) (w : World) : Option String × World :=
  let w1 : World := { w with trace := w.trace ++ [Event.rename src dst] }
  match h.osError (Event.rename src dst) w.files with
  | some e => (some e, w1)
  | none =>
    if lstat w.files src then
      (none, { w1 with files := without (without w.files src) dst ++ [dst] })
    else (some ("rename " ++ src ++ " " ++ dst ++ ": no such file or directory"), w1)

end os

/-! ### The packages `mg` and `sh` of mage, and `net/http` -/

namespace mg

/-- The function `mg.GoCmd`: the go command, `go` unless the environment
names another one. -/
def GoCmd (h : Host) : String :=
  if h.getenv "MAGEFILE_GOCMD" ≠ "" then h.getenv "MAGEFILE_GOCMD" else "go"

end mg

/-- A command is run to its end. -/
def execute (h : Host) (env : List (String × String)) (cmd : String) (args : List String)
    (stdin : String) (w : World) : RunResult × World :=
  let r := h.run env cmd args stdin w.files
  (r, { files := r.files, trace := w.trace ++ [Event.exec env cmd args stdin] })

namespace sh

/-- The function `sh.RunWithV`: the command is run with the environment
added; the result is its error. -/
def RunWithV (h : Host) (env : List (String × String)) (cmd : String) (args : List String)
    (w : World) : Option String × World :=
  ((execute h env cmd args "" w).1.failure, (execute h env cmd args "" w).2)

/-- The function `sh.Run`. -/
def Run (h : Host) (cmd : String) (args : List String) (w : World) : Option String × World :=
  RunWithV h [] cmd args w

/-- The function `sh.OutputWith`: the standard output and the error. -/
def OutputWith (h : Host) (env : List (String × String)) (cmd : String) (args : List String)
    (w : World) : (String × Option String) × World :=
  (((execute h env cmd args "" w).1.stdout, (execute h env cmd args "" w).1.failure),
    (execute h env cmd args "" w).2)

/-- The function `sh.Output`. -/
def Output (h : Host) (cmd : String) (args : List String) (w : World) :
    (String × Option String) × World :=
  OutputWith h [] cmd args w

end sh

namespace http

/-- Go `http.Get`: the body served at the address, or the error. -/
def Get (h : Host) (url : String) (w : World) : Except String String × World :=
  (h.httpGet url, { w with trace := w.trace ++ [Event.httpGet url] })

end http

/-! ## The package `buildvars` -/

namespace buildvars

/-- The function `GetBuildMode`, with the package variable `BuildMode` as
its argument. -/
def GetBuildMode (BuildMode : String) : String :=
  if BuildMode = "" then "production" else BuildMode

end buildvars

/-! ## The variables of `magefile.go` -/

def name : String := "go-mage"
def version : String := "3.16.0"
def gocovVersion : String := "v1.1.0"
def mingw_xcompiler : String := "x86_64-w64-mingw32-gcc"
def mingw_xcompiler_32 : String := "i686-w64-mingw32-gcc"
def targetDir : String := "./build"
/-- The map `assets`, as it is written in the source. -/
def assets : List (String × String) :=
  [("manifest", "build/windows/assets/app.manifest"),
   ("icon\x27", "build/windows/assets/app.ico"),
   ("versioninfo", "cmd/go-mage/versioninfo.json")]

def cleanupFiles : List String :=
  ["*cover.out",
   "*.log",
   "./cmd/go-mage/versioninfo.json",
   "./cmd/go-mage/*.syso",
   "./build/go-mage_*"]

structure Tool where
  Name : String
  Address : String
  Version : String
  IsRepo : Bool
deriving DecidableEq, Repr

/-- The struct `Builder`; the field `tools` is `none` for the nil map. -/
structure Builder where
  goos : String
  arch : String
  extra_tags : String := ""
  extra_flags : List String := []
  extra_ldflags : String := ""
  tools : Option (List (String × String)) := none
deriving DecidableEq, Repr

/-! ## The functions of `magefile.go` -/

/-- The function `buildEnv`. -/
def buildEnv (h : Host) : String :=
  let env := os.Getenv h "BUILD_ENV"
  if env = "dev" then "dev"
  else if env = "prod" then "prod"
  else "prod"

/-- The function `macosSDK`. -/
def macosSDK (env : String) (w : World) : String :=
  let sdkPath := "/Library/Developer/CommandLineTools/SDKs/MacOSX" ++ env ++ ".sdk"
  if !lstat w.files sdkPath then "" else sdkPath

/-- The function `goos`. -/
def goos (h : Host) (w : World) : String × World :=
  match sh.Output h (mg.GoCmd h) ["env", "GOOS"] w with
  | ((_, some _), w1) => (h.runtimeGOOS, w1)
  | ((out, none), w1) => (out, w1)

/-- The function `mingwxcompiler_exists`. -/
def mingwxcompiler_exists (h : Host) (w : World) : Bool × World :=
  ((sh.Run h mingw_xcompiler ["--version"] w).1.isNone,
    (sh.Run h mingw_xcompiler ["--version"] w).2)

/-- The function `mingwxcompiler32_exists`. -/
def mingwxcompiler32_exists (h : Host) (w : World) : Bool × World :=
  ((sh.Run h mingw_xcompiler_32 ["--version"] w).1.isNone,
    (sh.Run h mingw_xcompiler_32 ["--version"] w).2)

/-- The function `gopath`. -/
def gopath (h : Host) (w : World) : Except String String × World :=
  match sh.Output h (mg.GoCmd h) ["env", "GOPATH"] w with
  | ((_, some e), w1) => (.error ("failed to get GOPATH error: " ++ e), w1)
  | ((out, none), w1) =>
    let resolved : Except String String :=
      if out = "" then
        match h.homeDir with
        | .error e => .error ("failed to get user info error: " ++ e)
        | .ok home => .ok (filepath.Join [home, "go"])
      else .ok out
    match resolved with
    | .error e => (.error e, w1)
    | .ok gp =>
      match os.MkdirAll h gp w1 with
      | (some e, w2) =>
        (.error ("failed to create GOPATH \x27" ++ gp ++ "\x27 error: " ++ e), w2)
      | (none, w2) => (.ok gp, w2)

/-- Go `strings.Split(s, ":")[0]`: the part before the first colon. -/
def firstInPathList (s : String) : String := ⟨s.data.takeWhile (fun c => c ≠ ':')⟩

/-- The function `gobin`. -/
def gobin (h : Host) (gopath : String) (w : World) : Except String String × World :=
  match sh.Output h (mg.GoCmd h) ["env", "GOBIN"] w with
  | ((_, some e), w1) => (.error ("failed to get GOBIN error: " ++ e), w1)
  | ((out, none), w1) =>
    let resolved : Except String String :=
      if out = "" then
        if gopath = "" then .error "failed to get GOBIN, GOPATH is empty"
        else .ok (filepath.Join [firstInPathList gopath, "bin"])
      else .ok out
    match resolved with
    | .error e => (.error e, w1)
    | .ok gb =>
      match os.MkdirAll h gb w1 with
      | (some e, w2) =>
        (.error ("failed to create GOBIN \x27" ++ gb ++ "\x27 error: " ++ e), w2)
      | (none, w2) => (.ok gb, w2)

namespace Builder

/-- The method `env`: the map of the environment, and the world after the
probe of the cross compiler. -/
def env (h : Host) (b : Builder) (w : World) : List (String × String) × World :=
  let e0 : List (String × String) := []
  let e1 := envSet e0 "GOOS" b.goos
  let e2 := envSet e1 "GOARCH" b.arch
  let e3 := envSet e2 "CGO_ENABLED" (os.Getenv h "CGO_ENABLED")
  let e4 := envSet e3 "BUILD_ENV" (buildEnv h)
  let e5 :=
    if b.goos = "darwin" then
      envSet (envSet (envSet e4 "CGO_CFLAGS" "-mmacosx-version-min=10.15")
        "CGO_LDFLAGS" "-mmacosx-version-min=10.15")
        "SDKROOT" (macosSDK (os.Getenv h "MACOS_SDK_VERSION") w)
    else e4
  let e6 := if b.goos = "windows" then envSet e5 "CGO_LDFLAGS" "-static" else e5
  if b.goos = "windows" then
    if b.arch = "amd64" then
      if (mingwxcompiler_exists h w).1 then
        (envSet e6 "CC" mingw_xcompiler, (mingwxcompiler_exists h w).2)
      else (e6, (mingwxcompiler_exists h w).2)
    else
      if (mingwxcompiler32_exists h w).1 then
        (envSet e6 "CC" mingw_xcompiler_32, (mingwxcompiler32_exists h w).2)
      else (e6, (mingwxcompiler32_exists h w).2)
  else (e6, w)

/-- The method `targetFilename`. -/
def targetFilename (b : Builder) : String :=
  let extension := if b.goos = "windows" then ".exe" else ""
  name ++ "_" ++ b.goos ++ "_" ++ b.arch ++ extension

/-- The method `ldflags`. -/
def ldflags (h : Host) (b : Builder) (w : World) : String × World :=
  let commitID := (sh.Output h "git" ["rev-parse", "HEAD"] w).1.1
  let flags := "-s -w"
  let flags := flags ++ " -X github.com/yakuter/go-mage/pkg/buildvars.Version=" ++ version
  let flags := flags ++ " -X github.com/yakuter/go-mage/pkg/buildvars.BuildTime=" ++ h.now
  let flags := flags ++ " -X github.com/yakuter/go-mage/pkg/buildvars.CommitID=" ++ commitID
  let flags := flags ++ " -X github.com/yakuter/go-mage/pkg/buildvars.BuildMode=" ++ buildEnv h
  let flags :=
    if b.goos = "linux" ∨ b.goos = "windows" then flags ++ " -extldflags \x27-static\x27"
    else flags
  (flags, (sh.Output h "git" ["rev-parse", "HEAD"] w).2)

/-- The slice `patterns` of the method `locateBinPath`. -/
def binPatterns (b : Builder) (gobin gopath filename : String) : List String :=
  [filepath.Join [gopath, "bin", filename],
   filepath.Join [gopath, "bin", b.goos ++ "_" ++ b.arch, filename],
   filepath.Join [gobin, filename],
   filepath.Join [gobin, b.goos ++ "_" ++ b.arch, filename]]

/-- The loop of the method `locateBinPath`: the first match of the first
pattern that has one, the empty string when no pattern has a match. -/
def firstMatch (files : List String) : List String → Except String String
  | [] => .ok ""
  | pattern :: rest =>
    match filepath.Glob files pattern with
    | .error e => .error e
    | .ok [] => firstMatch files rest
    | .ok (m :: _) => .ok m

/-- The method `locateBinPath`. -/
def locateBinPath (b : Builder) (gobin gopath filename : String) (files : List String) :
    Except String String :=
  match firstMatch files (b.binPatterns gobin gopath filename) with
  | .error e => .error e
  | .ok path =>
    if path = "" then .error ("failed to locate \x27" ++ filename ++ "\x27")
    else .ok path

/-- The installation step of the method `installTool`: `go install` for a
tool that is a repository, and otherwise the installer script fetched from
the address and piped to a shell. -/
def runInstall (h : Host) (b : Builder) (tool : Tool) (gobin : String) (w : World) :
    Option String × World :=
  if tool.IsRepo then
    match sh.RunWithV h (b.env h w).1 (mg.GoCmd h)
        ["install", tool.Address ++ "@" ++ tool.Version] (b.env h w).2 with
    | (some e, w1) =>
      (some ("failed to install tool \x27" ++ tool.Name ++ "\x27 error: " ++ e ++ "\n"), w1)
    | (none, w1) => (none, w1)
  else
    match http.Get h tool.Address w with
    | (.error e, w1) =>
      (some ("failed to install tool \x27" ++ tool.Name ++ "\x27 error: " ++ e ++ "\n"), w1)
    | (.ok body, w1) =>
      match execute h [] "sh" ["-s", "--", "-b", gobin, tool.Version] body w1 with
      | (r, w2) =>
        match r.failure with
        | some e =>
          (some ("failed to install tool \x27" ++ tool.Name ++ "\x27 error: " ++ e ++ "\n"), w2)
        | none => (none, w2)

/-- The variable `filename` of the method `installTool`. -/
def toolFilename (b : Builder) (tool : Tool) : String :=
  if b.goos = "windows" then tool.Name ++ ".exe" else tool.Name

/-- The variable `filenameWithVersion` of the method `installTool`. -/
def toolFilenameWithVersion (b : Builder) (tool : Tool) : String :=
  if b.goos = "windows" then tool.Name ++ "-" ++ tool.Version ++ ".exe"
  else tool.Name ++ "-" ++ tool.Version

/-- The variable `pathWithVersion` of the method `installTool`, for the
located `path`. -/
def pathWithVersion (b : Builder) (tool : Tool) (path : String) : String :=
  filepath.Join [filepath.Dir path, b.toolFilenameWithVersion tool]

/-- The method `installTool`.  The builder in the result is the receiver
after the call. -/
def installTool (h : Host) (tool : Tool) (b : Builder) (w : World) :
    Ret Unit × Builder × World :=
  if mapGet b.tools tool.Name ≠ "" then (.ok (), b, w)
  else
    match gopath h w with
    | (.error e, w1) => (.err e, b, w1)
    | (.ok gp, w1) =>
      match gobin h gp w1 with
      | (.error e, w2) => (.err e, b, w2)
      | (.ok gb, w2) =>
        match b.locateBinPath gb gp (b.toolFilenameWithVersion tool) w2.files with
        | .ok path =>
          match mapSet b.tools tool.Name path with
          | none => (.panic "assignment to entry in nil map", b, w2)
          | some t => (.ok (), { b with tools := some t }, w2)
        | .error _ =>
          match b.runInstall h tool gb w2 with
          | (some e, w3) => (.err e, b, w3)
          | (none, w3) =>
            match b.locateBinPath gb gp (b.toolFilename tool) w3.files with
            | .error e =>
              (.err ("failed to install tool \x27" ++ tool.Name ++ "\x27 error: " ++ e ++ "\n"),
                b, w3)
            | .ok path =>
              match os.Rename h path (b.pathWithVersion tool path) w3 with
              | (some e, w4) =>
                (.err ("failed to rename \x27" ++ path ++ "\x27 as \x27"
                  ++ b.pathWithVersion tool path ++ "\x27 error: " ++ e ++ "\n"), b, w4)
              | (none, w4) =>
                match mapSet b.tools tool.Name (b.pathWithVersion tool path) with
                | none => (.panic "assignment to entry in nil map", b, w4)
                | some t => (.ok (), { b with tools := some t }, w4)

/-- The variable `sysoPath` of the method `ensureSyso`. -/
def sysoPath (b : Builder) : String := "cmd/tactical/resource_" ++ b.arch ++ ".syso"

/-- The read `assets[key]` of the map `assets`, as an option. -/
def asset (key : String) : Option String := assets.lookup key

/-- The arguments with which the method `ensureSyso` runs goversioninfo; a
key missing in `assets` reads as the empty string. -/
def sysoArgs (b : Builder) : List String :=
  ["-manifest=" ++ (asset "manifest").getD "",
   "-icon=" ++ (asset "icon").getD "",
   "-o", b.sysoPath,
   (asset "versioninfo").getD ""]

/-- The inner loop of the method `Clean`: the matches of one pattern are
removed in turn. -/
def removeEach (h : Host) : List String → World → Ret Unit × World
  | [], w => (.ok (), w)
  | file :: rest, w =>
    match os.Remove h file w with
    | (some e, w1) =>
      (.err ("failed to remove file \x27" ++ file ++ "\x27 error: " ++ e ++ "\n"), w1)
    | (none, w1) => removeEach h rest w1

/-- The outer loop of the method `Clean` over the patterns. -/
def cleanEach (h : Host) : List String → World → Ret Unit × World
  | [], w => (.ok (), w)
  | pattern :: rest, w =>
    match filepath.Glob w.files pattern with
    | .error e =>
      (.err ("failed to glob pattern \x27" ++ pattern ++ "\x27 error: " ++ e ++ "\n"), w)
    | .ok files =>
      match removeEach h files w with
      | (.ok _, w1) => cleanEach h rest w1
      | (.err e, w1) => (.err e, w1)
      | (.panic m, w1) => (.panic m, w1)

/-- The method `Clean`. -/
def Clean (h : Host) (_b : Builder) (w : World) : Ret Unit × World :=
  cleanEach h cleanupFiles w

end Builder

/-- Which events belong to an installation: `go install`, the HTTP fetch
of an installer, the shell that runs it, and a rename. -/
def Event.isInstall (h : Host) : Event → Bool
  | .exec _ cmd args _ =>
    (cmd = mg.GoCmd h ∧ args.head? = some "install") ∨ (cmd = "sh" ∧ args.head? = some "-s")
  | .httpGet _ => true
  | .rename _ _ => true
  | _ => false

/-- The events of the resolution of GOPATH and GOBIN, the probe that opens
`installTool`. -/
def resolveEvents (h : Host) (gp gb : String) : List Event :=
  [Event.exec [] (mg.GoCmd h) ["env", "GOPATH"] "", Event.mkdirAll gp,
   Event.exec [] (mg.GoCmd h) ["env", "GOBIN"] "", Event.mkdirAll gb]

/-- A path element that `Clean` keeps as it is: not empty, without
separator, and neither `.` nor `..`. -/
def plainElem (f : String) : Bool :=
  f.data ≠ [] ∧ '/' ∉ f.data ∧ f.data ≠ ['.'] ∧ f.data ≠ ['.', '.']

/-! ## Hosts and worlds for the examples -/

/-- A host whose environment holds the variables `vars`, on which every
command succeeds without output and leaves the filesystem as it is, and
whose operating system refuses nothing. -/
def quietHost (vars : List (String × String)) : Host where
  getenv := fun k => (vars.lookup k).getD ""
  homeDir := .ok "/home/u"
  runtimeGOOS := "linux"
  runtimeGOARCH := "amd64"
  now := "2021-01-01T00:00:00Z"
  run := fun _ _ _ _ files => { stdout := "", failure := none, files := files }
  httpGet := fun _ => .ok ""
  osError := fun _ _ => none

/-- A host on which `go env GOPATH` and `go env GOBIN` print `gp` and
`gb`, `go install` of a package adds the files `installed` to the
filesystem, the installer script cannot be fetched, and the operating
system refuses the operations `refused`. -/
def goHost (gp gb : String) (installed : List String) (refused : List Event) : Host where
  getenv := fun _ => ""
  homeDir := .ok "/home/u"
  runtimeGOOS := "linux"
  runtimeGOARCH := "amd64"
  now := "2021-01-01T00:00:00Z"
  run := fun _ _ args _ files =>
    if args = ["env", "GOPATH"] then { stdout := gp, failure := none, files := files }
    else if args = ["env", "GOBIN"] then { stdout := gb, failure := none, files := files }
    else if args.head? = some "install" then
      { stdout := "", failure := none, files := files ++ installed }
    else { stdout := "", failure := none, files := files }
  httpGet := fun _ => .error "no route to host"
  osError := fun e _ => if e ∈ refused then some "permission denied" else none

/-- The tool gocov of `toolInfo`. -/
def gocovTool : Tool :=
  { Name := "gocov", Address := "github.com/axw/gocov/gocov",
    Version := gocovVersion, IsRepo := true }

/-- A builder for linux/amd64 with an allocated, empty tools map. -/
def linuxBuilder : Builder := { goos := "linux", arch := "amd64", tools := some [] }

/-- A world in which gocov is installed under its version-qualified name
in `/go/bin`. -/
def cachedWorld : World :=
  { files := ["/go", "/go/bin", "/go/bin/gocov-v1.1.0"], trace := [] }

/-- A world in which GOPATH is the directory `/home/u/[go]`, with gocov
installed in it under its version-qualified name. -/
def bracketWorld : World :=
  { files := ["/home", "/home/u", "/home/u/[go]", "/home/u/[go]/bin",
              "/home/u/[go]/bin/gocov-v1.1.0"],
    trace := [] }

/-- A world with GOPATH `/go` in which no tool is installed. -/
def freshWorld : World := { files := ["/go", "/go/bin"], trace := [] }

/-- A world with GOPATH `/home/u/[go]` in which no tool is installed. -/
def bracketFreshWorld : World :=
  { files := ["/home", "/home/u", "/home/u/[go]", "/home/u/[go]/bin"], trace := [] }

/-- The world after the resolution of GOPATH and GOBIN in `freshWorld`. -/
def resolvedWorld (h : Host) : World :=
  { freshWorld with trace := resolveEvents h "/go" "/go/bin" }

/-- The rename of the installed gocov to its version-qualified name. -/
def gocovRename : Event := Event.rename "/go/bin/gocov" "/go/bin/gocov-v1.1.0"

/-- The world after the resolution of GOPATH and GOBIN in
`bracketFreshWorld`. -/
def bracketResolvedWorld (h : Host) : World :=
  { bracketFreshWorld with trace := resolveEvents h "/home/u/[go]" "/home/u/[go]/bin" }

/-- A builder for linux/amd64 whose tools map already has an entry for
gocov. -/
def cachedBuilder : Builder :=
  { goos := "linux", arch := "amd64", tools := some [("gocov", "/opt/gocov")] }

/-- A host with GOPATH `/go` on which `go install` leaves `/go/bin/gocov`. -/
def gocovHost : Host := goHost "/go" "" ["/go/bin/gocov"] []

/-- The builder after gocov has been installed by `linuxBuilder`. -/
def installedBuilder : Builder :=
  { linuxBuilder with tools := some [("gocov", "/go/bin/gocov-v1.1.0")] }

/-- The world after gocov has been installed in `freshWorld`. -/
def installedWorld : World :=
  { files := ["/go", "/go/bin", "/go/bin/gocov-v1.1.0"],
    trace := resolveEvents gocovHost "/go" "/go/bin"
      ++ [Event.exec [("BUILD_ENV", "prod"), ("CGO_ENABLED", ""), ("GOARCH", "amd64"),
            ("GOOS", "linux")] "go" ["install", "github.com/axw/gocov/gocov@v1.1.0"] "",
          Event.rename "/go/bin/gocov" "/go/bin/gocov-v1.1.0"] }

/-- A path element that `Clean` keeps as it is, as a character list. -/
def plainComp (c : List Char) : Bool :=
  c ≠ [] ∧ '/' ∉ c ∧ c ≠ ['.'] ∧ c ≠ ['.', '.']

/-- The elements of a cleaned path: a run of `..`, none in a rooted path,
followed by plain elements. -/
def Normal (r : Bool) (elems : List (List Char)) : Prop :=
  ∃ (n : Nat) (rest : List (List Char)),
    elems = List.replicate n ['.', '.'] ++ rest ∧ (r = true → n = 0) ∧
      ∀ c ∈ rest, plainComp c = true


/-- The elements before the file name in the four patterns of
`locateBinPath`. -/
def Builder.binBases (b : Builder) (gobin gopath : String) : List (List String) :=
  [[gopath, "bin"], [gopath, "bin", b.goos ++ "_" ++ b.arch], [gobin],
   [gobin, b.goos ++ "_" ++ b.arch]]


/-- A tool whose name contains a separator. -/
def slashTool : Tool :=
  { Name := "x/gocov", Address := "github.com/axw/gocov/gocov",
    Version := gocovVersion, IsRepo := true }

/-- A tool whose name contains a magic character of glob patterns. -/
def bracketTool : Tool :=
  { Name := "[g]ocov", Address := "github.com/axw/gocov/gocov",
    Version := gocovVersion, IsRepo := true }

/-- A host with GOPATH `/go` and GOBIN `/gobin` on which `go install`
leaves the binary in GOBIN and a version-qualified file in `/go/bin`. -/
def strayHost : Host :=
  goHost "/go" "/gobin" ["/gobin/gocov", "/go/bin/gocov-v1.1.0"] []

/-- A world with GOPATH `/go` and GOBIN `/gobin` in which no tool is
installed. -/
def gobinWorld : World := { files := ["/go", "/go/bin", "/gobin"], trace := [] }

/-- A host on which `go env GOPATH` prints `/go` until gocov is installed
there and `/srv/go` afterwards. -/
def driftHost : Host :=
  { gocovHost with
    run := fun env cmd args stdin files =>
      if args = ["env", "GOPATH"] ∧ lstat files "/go/bin/gocov-v1.1.0" then
        { stdout := "/srv/go", failure := none, files := files }
      else gocovHost.run env cmd args stdin files }

/-- The call of `installTool` on the builder `f` in the world that the
call on the builder `b` leaves. -/
def secondCall (h : Host) (tool : Tool) (b f : Builder) (w : World) :
    Ret Unit × Builder × World :=
  f.installTool h tool (b.installTool h tool w).2.2

/-- The events of the second call: what it adds to the trace that the first
call leaves. -/
def secondEvents (h : Host) (tool : Tool) (b f : Builder) (w : World) : List Event :=
  (secondCall h tool b f w).2.2.trace.drop (b.installTool h tool w).2.2.trace.length


/-- A path matches a pattern when globbing the pattern over the filesystem
that holds this path alone finds it. -/
def matchesPattern (pattern path : String) : Bool :=
  match filepath.Glob [path] pattern with
  | .ok (_ :: _) => true
  | _ => false

/-- The path matches at least one pattern of `cleanupFiles`. -/
def cleaned (path : String) : Bool :=
  cleanupFiles.any (fun pattern => matchesPattern pattern path)

theorem exe_suffix_after_underscore (pre a : List Char) :
    ['.', 'e', 'x', 'e'] <:+ pre ++ '_' :: a ↔ ['.', 'e', 'x', 'e'] <:+ a := by
  constructor
  · intro hs
    have h1 : a <:+ pre ++ '_' :: a := ⟨pre ++ ['_'], by simp⟩
    by_cases hl : 4 ≤ a.length
    · exact List.suffix_of_suffix_length_le hs h1 (by simpa using hl)
    · exfalso
      have h2 : '_' :: a <:+ pre ++ '_' :: a := List.suffix_append _ _
      have h3 : '_' :: a <:+ ['.', 'e', 'x', 'e'] :=
        List.suffix_of_suffix_length_le h2 hs (by simp; omega)
      obtain ⟨t, ht⟩ := h3
      rcases t with _ | ⟨t1, _ | ⟨t2, _ | ⟨t3, _ | ⟨t4, t⟩⟩⟩⟩ <;> simp at ht
  · intro hs
    exact hs.trans ⟨pre ++ ['_'], by simp⟩

/-- C3: `GetBuildMode` returns "production" when `BuildMode` is the empty
string and `BuildMode` itself otherwise. -/
theorem GetBuildMode_spec (BuildMode : String) :
    (BuildMode = "" → buildvars.GetBuildMode BuildMode = "production") ∧
    (BuildMode ≠ "" → buildvars.GetBuildMode BuildMode = BuildMode) := by
  constructor
  · intro hm
    simp [buildvars.GetBuildMode, hm]
  · intro hm
    simp [buildvars.GetBuildMode, hm]

/-- C3, at the unset variable and at "dev". -/
theorem GetBuildMode_spec_witness :
    buildvars.GetBuildMode "" = "production" ∧ buildvars.GetBuildMode "dev" = "dev" :=
  ⟨(GetBuildMode_spec "").1 rfl, (GetBuildMode_spec "dev").2 (by decide)⟩

/-- C4 as stated fails: for the target `linux` with the architecture string
`amd64.exe` the file name ends in ".exe" although the target is not
"windows". -/
theorem targetFilename_exe_not_windows :
    ¬ (HasSuffix (Builder.targetFilename { goos := "linux", arch := "amd64.exe" }) ".exe"
        ↔ ({ goos := "linux", arch := "amd64.exe" } : Builder).goos = "windows") := by
  decide

/-- C4, amended: the file name returned by `targetFilename` ends in ".exe"
exactly when the target is "windows" or the architecture string itself ends
in ".exe". -/
theorem targetFilename_exe_iff (b : Builder) :
    HasSuffix b.targetFilename ".exe" ↔ (b.goos = "windows" ∨ HasSuffix b.arch ".exe") := by
  unfold HasSuffix Builder.targetFilename
  by_cases hw : b.goos = "windows"
  · simp only [hw, if_true, true_or, iff_true, String.data_append]
    exact List.suffix_append _ _
  · simp only [hw, if_false, false_or, String.data_append]
    have := exe_suffix_after_underscore (name.data ++ ['_'] ++ b.goos.data) b.arch.data
    simpa [List.append_assoc] using this

/-! ## Build mode -/

/-- C9: the code substitutes "dev" or "prod" for `buildvars.BuildMode`,
never "development" or "production"; with `BUILD_ENV=dev` the link flags of
a linux build carry `BuildMode=dev`. -/
theorem buildEnv_dev_or_prod :
    (∀ h : Host, (buildEnv h = "dev" ∨ buildEnv h = "prod") ∧
      buildEnv h ≠ "development" ∧ buildEnv h ≠ "production") ∧
    (Builder.ldflags (quietHost [("BUILD_ENV", "dev")]) { goos := "linux", arch := "amd64" }
        { files := [], trace := [] }).1
      = "-s -w -X github.com/yakuter/go-mage/pkg/buildvars.Version=3.16.0"
        ++ " -X github.com/yakuter/go-mage/pkg/buildvars.BuildTime=2021-01-01T00:00:00Z"
        ++ " -X github.com/yakuter/go-mage/pkg/buildvars.CommitID="
        ++ " -X github.com/yakuter/go-mage/pkg/buildvars.BuildMode=dev"
        ++ " -extldflags \x27-static\x27" := by
  refine ⟨fun h => ?_, by rfl⟩
  unfold buildEnv
  by_cases h1 : os.Getenv h "BUILD_ENV" = "dev"
  · simp only [h1, if_true]; decide
  · by_cases h2 : os.Getenv h "BUILD_ENV" = "prod"
    · simp only [h1, h2, if_true, if_false]; decide
    · simp only [h1, h2, if_false]; decide

/-! ## Assets -/

/-- C10: the key "icon" that `ensureSyso` reads is not a key of `assets`
(the map has the key "icon" followed by an apostrophe), so goversioninfo is
run with an empty `-icon=` flag. -/
theorem asset_icon_missing :
    Builder.asset "icon" = none ∧
    Builder.asset "manifest" = some "build/windows/assets/app.manifest" ∧
    Builder.asset "versioninfo" = some "cmd/go-mage/versioninfo.json" ∧
    Builder.sysoArgs { goos := "windows", arch := "amd64" }
      = ["-manifest=build/windows/assets/app.manifest", "-icon=", "-o",
         "cmd/tactical/resource_amd64.syso", "cmd/go-mage/versioninfo.json"] := by
  decide

/-! ## What `Clean` covers -/

/-- C8: for the target windows/amd64 the binary and the coverage file match
a pattern of `cleanupFiles`, but the resource file that `ensureSyso` writes,
`cmd/tactical/resource_amd64.syso`, matches none, and `Clean` leaves it in
place. -/
theorem sysoPath_not_cleaned :
    cleaned (filepath.Join [targetDir,
      Builder.targetFilename { goos := "windows", arch := "amd64" }]) = true ∧
    cleaned (({ goos := "windows", arch := "amd64" } : Builder).goos ++ "-cover.out") = true ∧
    cleaned (Builder.sysoPath { goos := "windows", arch := "amd64" }) = false ∧
    Builder.Clean (quietHost []) { goos := "windows", arch := "amd64" }
        { files := ["build", "build/go-mage_windows_amd64.exe", "windows-cover.out",
                    "cmd", "cmd/tactical", "cmd/tactical/resource_amd64.syso"],
          trace := [] }
      = (.ok (),
         { files := ["build", "cmd", "cmd/tactical", "cmd/tactical/resource_amd64.syso"],
           trace := [Event.remove "windows-cover.out",
                     Event.remove "build/go-mage_windows_amd64.exe"] }) := by
  decide

/-! ## Patterns without magic characters -/

theorem scanTerms_plain (cs : List Char)
    (hcs : cs.any (fun c => c = '*' ∨ c = '?' ∨ c = '[' ∨ c = '\\') = false) :
    ∃ ts, filepath.scanTerms .top cs = some ts := by
  induction cs with
  | nil => exact ⟨[], rfl⟩
  | cons c cs ih =>
    simp only [List.any_cons, Bool.or_eq_false_iff, decide_eq_false_iff_not, not_or] at hcs
    obtain ⟨⟨h1, h2, h3, h4⟩, hrest⟩ := hcs
    obtain ⟨ts, hts⟩ := ih hrest
    exact ⟨filepath.Term.lit c :: ts, by simp [filepath.scanTerms, h1, h2, h3, h4, hts]⟩

theorem globWithLimit_plain (files : List String) (fuel : Nat) (pattern : String)
    (hp : filepath.hasMeta pattern = false) :
    filepath.globWithLimit files (fuel + 1) pattern
      = .ok (if lstat files pattern then [pattern] else []) := by
  obtain ⟨ts, hts⟩ := scanTerms_plain pattern.data hp
  rw [filepath.globWithLimit]
  simp only [filepath.Match, hts, hp]
  by_cases hl : lstat files pattern = true <;> simp [hl]

theorem Glob_plain (files : List String) (pattern : String)
    (hp : filepath.hasMeta pattern = false) :
    filepath.Glob files pattern = .ok (if lstat files pattern then [pattern] else []) :=
  globWithLimit_plain files 9999 pattern hp

theorem firstMatch_plain (files : List String) (patterns : List String)
    (hp : ∀ c ∈ patterns, filepath.hasMeta c = false) :
    Builder.firstMatch files patterns
      = .ok ((patterns.find? (fun c => lstat files c)).getD "") := by
  induction patterns with
  | nil => rfl
  | cons c rest ih =>
    have hc := hp c (List.mem_cons_self _ _)
    have hrest := ih (fun d hd => hp d (List.mem_cons_of_mem _ hd))
    unfold Builder.firstMatch
    rw [Glob_plain files c hc]
    by_cases hl : lstat files c = true
    · simp [hl]
    · simp [hl, hrest]

theorem lstat_ne_empty (files : List String) (p : String) (hl : lstat files p = true) :
    p ≠ "" := by
  unfold lstat at hl
  simp only [decide_eq_true_eq] at hl
  exact hl.1

theorem locateBinPath_found (b : Builder) (gb gp filename : String) (files : List String)
    (p : String) (hp : ∀ c ∈ b.binPatterns gb gp filename, filepath.hasMeta c = false)
    (hfound : (b.binPatterns gb gp filename).find? (fun c => lstat files c) = some p) :
    b.locateBinPath gb gp filename files = .ok p := by
  have hne : p ≠ "" := lstat_ne_empty files p (by simpa using List.find?_some hfound)
  unfold Builder.locateBinPath
  rw [firstMatch_plain files _ hp, hfound]
  simp [hne]

theorem locateBinPath_none (b : Builder) (gb gp filename : String) (files : List String)
    (hp : ∀ c ∈ b.binPatterns gb gp filename, filepath.hasMeta c = false)
    (hnone : ∀ c ∈ b.binPatterns gb gp filename, lstat files c = false) :
    b.locateBinPath gb gp filename files
      = .error ("failed to locate \x27" ++ filename ++ "\x27") := by
  have hf : (b.binPatterns gb gp filename).find? (fun c => lstat files c) = none := by
    rw [List.find?_eq_none]
    intro c hc
    simp [hnone c hc]
  unfold Builder.locateBinPath
  rw [firstMatch_plain files _ hp, hf]
  simp

/-! ## The resolution of GOPATH and GOBIN -/

theorem MkdirAll_trace (h : Host) (path : String) (w : World) :
    (os.MkdirAll h path w).2.trace = w.trace ++ [Event.mkdirAll path] := by
  unfold os.MkdirAll
  split
  · rfl
  · split <;> rfl

theorem gopath_trace (h : Host) (w w1 : World) (gp : String)
    (hg : gopath h w = (.ok gp, w1)) :
    w1.trace = w.trace ++ [Event.exec [] (mg.GoCmd h) ["env", "GOPATH"] "", Event.mkdirAll gp] := by
  unfold gopath at hg
  simp only [sh.Output, sh.OutputWith, execute] at hg
  split at hg
  · simp at hg
  · rename_i out wa heq
    simp only [Prod.mk.injEq] at heq
    obtain ⟨⟨hout, hfail⟩, hwa⟩ := heq
    split at hg
    · simp at hg
    · rename_i gp0 hres
      split at hg
      · simp at hg
      · rename_i w2 hmk
        simp only [Prod.mk.injEq, Except.ok.injEq] at hg
        obtain ⟨hgp, hw⟩ := hg
        subst hw hgp
        have := MkdirAll_trace h gp0 wa
        rw [hmk] at this
        simp only at this
        rw [this, ← hwa]
        simp


theorem gobin_trace (h : Host) (w w1 : World) (gp gb : String)
    (hg : gobin h gp w = (.ok gb, w1)) :
    w1.trace = w.trace ++ [Event.exec [] (mg.GoCmd h) ["env", "GOBIN"] "", Event.mkdirAll gb] := by
  unfold gobin at hg
  simp only [sh.Output, sh.OutputWith, execute] at hg
  split at hg
  · simp at hg
  · rename_i out wa heq
    simp only [Prod.mk.injEq] at heq
    obtain ⟨⟨hout, hfail⟩, hwa⟩ := heq
    split at hg
    · simp at hg
    · rename_i gb0 hres
      split at hg
      · simp at hg
      · rename_i w2 hmk
        simp only [Prod.mk.injEq, Except.ok.injEq] at hg
        obtain ⟨hgb, hw⟩ := hg
        subst hw hgb
        have := MkdirAll_trace h gb0 wa
        rw [hmk] at this
        simp only at this
        rw [this, ← hwa]
        simp

theorem resolve_trace (h : Host) (w w1 w2 : World) (gp gb : String)
    (hgp : gopath h w = (.ok gp, w1)) (hgb : gobin h gp w1 = (.ok gb, w2)) :
    w2.trace = w.trace ++ resolveEvents h gp gb := by
  rw [gobin_trace h w1 w2 gp gb hgb, gopath_trace h w w1 gp hgp]
  simp [resolveEvents]

theorem resolveEvents_not_install (h : Host) (gp gb : String) :
    ∀ e ∈ resolveEvents h gp gb, e.isInstall h = false := by
  intro e he
  simp only [resolveEvents, List.mem_cons, List.mem_singleton, List.not_mem_nil, or_false] at he
  rcases he with rfl | rfl | rfl | rfl <;> simp [Event.isInstall]

theorem mapGet_mapSet (m : List (String × String)) (k v : String) :
    mapGet (mapSet (some m) k v) k = v := by
  simp [mapGet, mapSet, List.lookup]

/-- The fast path of `installTool`: without an entry for the tool, once
GOPATH and GOBIN are resolved and the probe for the version-qualified name
finds `p`, the path is recorded and nothing else is done. -/
theorem installTool_fast (h : Host) (tool : Tool) (b : Builder) (w w1 w2 : World)
    (gp gb p : String) (m : List (String × String))
    (htools : b.tools = some m) (hentry : mapGet b.tools tool.Name = "")
    (hgp : gopath h w = (.ok gp, w1)) (hgb : gobin h gp w1 = (.ok gb, w2))
    (hmeta : ∀ c ∈ b.binPatterns gb gp (b.toolFilenameWithVersion tool),
      filepath.hasMeta c = false)
    (hfound : (b.binPatterns gb gp (b.toolFilenameWithVersion tool)).find?
      (fun c => lstat w2.files c) = some p) :
    b.installTool h tool w
      = (.ok (), { b with tools := mapSet b.tools tool.Name p }, w2) := by
  unfold Builder.installTool
  rw [hgp]
  simp only [hentry, ne_eq, not_true_eq_false, if_false, hgb]
  rw [locateBinPath_found b gb gp _ w2.files p hmeta hfound]
  simp [htools, mapSet]

/-- C1, amended: for a builder with an allocated tools map without entry
for the tool, if GOPATH and GOBIN resolve, no candidate path contains a
magic character of glob patterns, and the version-qualified file exists at
a candidate path, then `installTool` returns nil, records the first
candidate at which the file exists, and after the resolution of GOPATH and
GOBIN attempts nothing: no installation event, no change of the
filesystem. -/
theorem installTool_found (h : Host) (tool : Tool) (b : Builder) (w w1 w2 : World)
    (gp gb : String) (m : List (String × String))
    (htools : b.tools = some m) (hentry : mapGet b.tools tool.Name = "")
    (hgp : gopath h w = (.ok gp, w1)) (hgb : gobin h gp w1 = (.ok gb, w2))
    (hmeta : ∀ c ∈ b.binPatterns gb gp (b.toolFilenameWithVersion tool),
      filepath.hasMeta c = false)
    (hex : ∃ c ∈ b.binPatterns gb gp (b.toolFilenameWithVersion tool),
      lstat w2.files c = true) :
    ∃ p, (b.binPatterns gb gp (b.toolFilenameWithVersion tool)).find?
          (fun c => lstat w2.files c) = some p ∧
      b.installTool h tool w
        = (.ok (), { b with tools := mapSet b.tools tool.Name p }, w2) ∧
      mapGet (mapSet b.tools tool.Name p) tool.Name = p ∧
      w2.trace = w.trace ++ resolveEvents h gp gb ∧
      (∀ e ∈ resolveEvents h gp gb, e.isInstall h = false) := by
  obtain ⟨c, hc, hl⟩ := hex
  cases hf : (b.binPatterns gb gp (b.toolFilenameWithVersion tool)).find?
      (fun c => lstat w2.files c) with
  | none =>
    rw [List.find?_eq_none] at hf
    exact absurd hl (by simpa using hf c hc)
  | some p =>
    refine ⟨p, rfl, installTool_fast h tool b w w1 w2 gp gb p m htools hentry hgp hgb hmeta hf,
      ?_, resolve_trace h w w1 w2 gp gb hgp hgb, resolveEvents_not_install h gp gb⟩
    rw [htools]
    exact mapGet_mapSet m tool.Name p

/-- C1 at gocov cached in `/go/bin`: the probe finds
`/go/bin/gocov-v1.1.0`. -/
theorem installTool_found_witness :
    ∃ p, (linuxBuilder.binPatterns "/go/bin" "/go"
            (linuxBuilder.toolFilenameWithVersion gocovTool)).find?
          (fun c => lstat cachedWorld.files c) = some p ∧
      linuxBuilder.installTool (goHost "/go" "" [] []) gocovTool cachedWorld
        = (.ok (), { linuxBuilder with tools := mapSet linuxBuilder.tools gocovTool.Name p },
            { cachedWorld with trace := resolveEvents (goHost "/go" "" [] []) "/go" "/go/bin" }) ∧
      mapGet (mapSet linuxBuilder.tools gocovTool.Name p) gocovTool.Name = p ∧
      resolveEvents (goHost "/go" "" [] []) "/go" "/go/bin"
        = cachedWorld.trace ++ resolveEvents (goHost "/go" "" [] []) "/go" "/go/bin" ∧
      (∀ e ∈ resolveEvents (goHost "/go" "" [] []) "/go" "/go/bin",
        e.isInstall (goHost "/go" "" [] []) = false) :=
  installTool_found (goHost "/go" "" [] []) gocovTool linuxBuilder cachedWorld
    (gopath (goHost "/go" "" [] []) cachedWorld).2
    { cachedWorld with trace := resolveEvents (goHost "/go" "" [] []) "/go" "/go/bin" }
    "/go" "/go/bin" [] rfl (by decide) (by decide) (by decide) (by decide)
    ⟨"/go/bin/gocov-v1.1.0", by decide, by decide⟩

/-- C1 as stated fails.  With GOPATH `/home/u/[go]` the version-qualified
file exists at the first candidate path, yet the probe reads the path as a
pattern, does not find it, and `go install` is run; and on a builder whose
tools map is nil the file is found but recording it panics. -/
theorem installTool_found_fails :
    (mapGet linuxBuilder.tools gocovTool.Name = "" ∧
      lstat bracketWorld.files "/home/u/[go]/bin/gocov-v1.1.0" = true ∧
      "/home/u/[go]/bin/gocov-v1.1.0" ∈ linuxBuilder.binPatterns "/home/u/[go]/bin"
        "/home/u/[go]" (linuxBuilder.toolFilenameWithVersion gocovTool) ∧
      (linuxBuilder.installTool (goHost "/home/u/[go]" "" [] []) gocovTool bracketWorld).1
        = .err "failed to install tool \x27gocov\x27 error: failed to locate \x27gocov\x27\n" ∧
      (linuxBuilder.installTool (goHost "/home/u/[go]" "" [] []) gocovTool
          bracketWorld).2.2.trace.any
        (fun e => e.isInstall (goHost "/home/u/[go]" "" [] [])) = true) ∧
    (mapGet ({ goos := "linux", arch := "amd64" } : Builder).tools gocovTool.Name = "" ∧
      (Builder.installTool (goHost "/go" "" [] []) gocovTool
          { goos := "linux", arch := "amd64" } cachedWorld).1
        = .panic "assignment to entry in nil map") := by
  decide


/-! ## Paths -/

theorem splitSep_ne_nil (cs : List Char) : filepath.splitSep cs ≠ [] := by
  cases cs with
  | nil => simp [filepath.splitSep]
  | cons c cs =>
    unfold filepath.splitSep
    split
    · simp
    · split <;> simp

theorem splitSep_plain (f : List Char) (hf : '/' ∉ f) : filepath.splitSep f = [f] := by
  induction f with
  | nil => rfl
  | cons c cs ih =>
    simp only [List.mem_cons, not_or] at hf
    unfold filepath.splitSep
    rw [ih hf.2]
    have : c ≠ '/' := fun e => hf.1 e.symm
    simp [this]

theorem splitSep_append_sep (a b : List Char) :
    filepath.splitSep (a ++ '/' :: b) = filepath.splitSep a ++ filepath.splitSep b := by
  induction a with
  | nil =>
    cases hb : filepath.splitSep b with
    | nil => exact absurd hb (splitSep_ne_nil b)
    | cons x xs => simp [filepath.splitSep, hb]
  | cons c a ih =>
    cases ha : filepath.splitSep a with
    | nil => exact absurd ha (splitSep_ne_nil a)
    | cons x xs =>
      have e1 : filepath.splitSep (c :: a ++ '/' :: b)
          = if c = '/' then [] :: x :: (xs ++ filepath.splitSep b)
            else (c :: x) :: (xs ++ filepath.splitSep b) := by
        show filepath.splitSep (c :: (a ++ '/' :: b)) = _
        rw [filepath.splitSep, ih, ha]
        rfl
      have e2 : filepath.splitSep (c :: a)
          = if c = '/' then [] :: x :: xs else (c :: x) :: xs := by
        rw [filepath.splitSep, ha]
      rw [e1, e2]
      by_cases hc : c = '/' <;> simp [hc]

theorem cleanStep_plain (r : Bool) (kept : List (List Char)) (f : String)
    (hf : plainElem f = true) : filepath.cleanStep r kept f.data = kept ++ [f.data] := by
  simp only [plainElem, decide_eq_true_eq] at hf
  obtain ⟨h1, _, h3, h4⟩ := hf
  simp [filepath.cleanStep, h1, h3, h4]

theorem joinSep_snoc_suffix (kept : List (List Char)) (f : List Char) :
    f <:+ filepath.joinSep (kept ++ [f]) := by
  induction kept with
  | nil => exact List.suffix_refl f
  | cons x xs ih =>
    cases xs with
    | nil =>
      show f <:+ x ++ '/' :: f
      exact ⟨x ++ ['/'], by simp⟩
    | cons y ys =>
      show f <:+ x ++ '/' :: filepath.joinSep (y :: ys ++ [f])
      exact ih.trans ⟨x ++ ['/'], by simp⟩

theorem renderPath_ne_nil (p : Bool × List (List Char)) : filepath.renderPath p ≠ [] := by
  unfold filepath.renderPath
  simp only
  split
  · simp
  · split
    · simp
    · assumption

theorem renderPath_snoc_suffix (r : Bool) (kept : List (List Char)) (f : List Char)
    (hf : f ≠ []) : f <:+ filepath.renderPath (r, kept ++ [f]) := by
  have hj := joinSep_snoc_suffix kept f
  have hne : filepath.joinSep (kept ++ [f]) ≠ [] := by
    intro e
    rw [e] at hj
    exact hf (List.suffix_nil.mp hj)
  unfold filepath.renderPath
  cases r with
  | true =>
    simp only [if_true]
    rw [if_neg (by simp)]
    exact hj.trans (List.suffix_cons _ _)
  | false =>
    simp only [Bool.false_eq_true, if_false]
    rw [if_neg hne]
    exact hj

theorem String_data_ne_nil (s : String) (hs : s ≠ "") : s.data ≠ [] := by
  intro e
  apply hs
  cases s
  simp_all

theorem Join_two (d f : String) (hd : d ≠ "") :
    filepath.Join [d, f] = ⟨filepath.cleanChars (d.data ++ '/' :: f.data)⟩ := by
  simp [filepath.Join, hd, filepath.joinStrings]

theorem Join_two_ne_empty (d f : String) (hd : d ≠ "") : filepath.Join [d, f] ≠ "" := by
  rw [Join_two d f hd]
  intro e
  have := congrArg String.data e
  exact renderPath_ne_nil _ this

theorem Dir_ne_empty (path : String) : filepath.Dir path ≠ "" := by
  intro e
  have := congrArg String.data e
  exact renderPath_ne_nil _ this

/-- The join of a directory with a plain file name ends in that name. -/
theorem Join_suffix (d f : String) (hd : d ≠ "") (hf : plainElem f = true) :
    HasSuffix (filepath.Join [d, f]) f := by
  rw [Join_two d f hd]
  unfold HasSuffix filepath.cleanChars filepath.parsePath
  have hslash : '/' ∉ f.data := by
    simp only [plainElem, decide_eq_true_eq] at hf
    exact hf.2.1
  have hne : f.data ≠ [] := by
    simp only [plainElem, decide_eq_true_eq] at hf
    exact hf.1
  simp only
  rw [splitSep_append_sep, splitSep_plain f.data hslash, List.foldl_append]
  simp only [List.foldl_cons, List.foldl_nil]
  rw [cleanStep_plain _ _ f hf]
  exact renderPath_snoc_suffix _ _ _ hne

/-! ## Installation -/

theorem Rename_ok (h : Host) (src dst : String) (w : World)
    (hsrc : lstat w.files src = true)
    (hos : h.osError (Event.rename src dst) w.files = none) :
    os.Rename h src dst w
      = (none, { files := without (without w.files src) dst ++ [dst],
                 trace := w.trace ++ [Event.rename src dst] }) := by
  simp [os.Rename, hos, hsrc]

/-- C2, amended: for a builder with an allocated tools map without entry
for the tool, when GOPATH and GOBIN resolve, no candidate path contains a
magic character of glob patterns, no version-qualified file exists at a
candidate path, the install step succeeds, `p` is the first candidate path
at which the unqualified binary then exists, and the operating system
carries out the rename, `installTool` renames `p` to the version-qualified
name in the directory of `p`, records exactly that path and returns nil;
the recorded path ends in the version-qualified name when that is a plain
file name, as it is for gocov v1.1.0. -/
theorem installTool_installs (h : Host) (tool : Tool) (b : Builder) (w w1 w2 w3 : World)
    (gp gb p : String) (m : List (String × String))
    (htools : b.tools = some m) (hentry : mapGet b.tools tool.Name = "")
    (hgp : gopath h w = (.ok gp, w1)) (hgb : gobin h gp w1 = (.ok gb, w2))
    (hmetaV : ∀ c ∈ b.binPatterns gb gp (b.toolFilenameWithVersion tool),
      filepath.hasMeta c = false)
    (hnoneV : ∀ c ∈ b.binPatterns gb gp (b.toolFilenameWithVersion tool),
      lstat w2.files c = false)
    (hinst : b.runInstall h tool gb w2 = (none, w3))
    (hmetaU : ∀ c ∈ b.binPatterns gb gp (b.toolFilename tool), filepath.hasMeta c = false)
    (hp : (b.binPatterns gb gp (b.toolFilename tool)).find? (fun c => lstat w3.files c)
      = some p)
    (hren : h.osError (Event.rename p (b.pathWithVersion tool p)) w3.files = none) :
    b.installTool h tool w
      = (.ok (), { b with tools := mapSet b.tools tool.Name (b.pathWithVersion tool p) },
         { files := without (without w3.files p) (b.pathWithVersion tool p)
             ++ [b.pathWithVersion tool p],
           trace := w3.trace ++ [Event.rename p (b.pathWithVersion tool p)] }) ∧
    mapGet (mapSet b.tools tool.Name (b.pathWithVersion tool p)) tool.Name
      = b.pathWithVersion tool p ∧
    (plainElem (b.toolFilenameWithVersion tool) = true →
      HasSuffix (b.pathWithVersion tool p) (b.toolFilenameWithVersion tool)) ∧
    (tool.Name = "gocov" → tool.Version = "v1.1.0" →
      (b.goos ≠ "windows" → HasSuffix (b.pathWithVersion tool p) "gocov-v1.1.0") ∧
      (b.goos = "windows" → HasSuffix (b.pathWithVersion tool p) "gocov-v1.1.0.exe")) := by
  have hlp : lstat w3.files p = true := by simpa using List.find?_some hp
  refine ⟨?_, ?_, ?_, ?_⟩
  · unfold Builder.installTool
    rw [hgp]
    simp only [hentry, ne_eq, not_true_eq_false, if_false, hgb]
    rw [locateBinPath_none b gb gp _ w2.files hmetaV hnoneV]
    simp only [hinst]
    rw [locateBinPath_found b gb gp _ w3.files p hmetaU hp]
    simp only [Rename_ok h p _ w3 hlp hren]
    simp [htools, mapSet]
  · rw [htools]
    exact mapGet_mapSet m tool.Name _
  · intro hplain
    exact Join_suffix _ _ (Dir_ne_empty p) hplain
  · intro hn hv
    constructor
    · intro hw
      have e : b.toolFilenameWithVersion tool = "gocov-v1.1.0" := by
        simp [Builder.toolFilenameWithVersion, hw, hn, hv]
      unfold Builder.pathWithVersion
      rw [e]
      exact Join_suffix _ _ (Dir_ne_empty p) (by decide)
    · intro hw
      have e : b.toolFilenameWithVersion tool = "gocov-v1.1.0.exe" := by
        simp [Builder.toolFilenameWithVersion, hw, hn, hv]
      unfold Builder.pathWithVersion
      rw [e]
      exact Join_suffix _ _ (Dir_ne_empty p) (by decide)

/-- C2 at gocov on linux/amd64 with GOPATH `/go`: `go install` leaves
`/go/bin/gocov`, which is renamed to `/go/bin/gocov-v1.1.0`. -/
theorem installTool_installs_witness :
    linuxBuilder.installTool (goHost "/go" "" ["/go/bin/gocov"] []) gocovTool freshWorld
      = (.ok (), { linuxBuilder with tools := some [("gocov", "/go/bin/gocov-v1.1.0")] },
         { files := ["/go", "/go/bin", "/go/bin/gocov-v1.1.0"],
           trace := resolveEvents (goHost "/go" "" ["/go/bin/gocov"] []) "/go" "/go/bin"
             ++ [Event.exec [("BUILD_ENV", "prod"), ("CGO_ENABLED", ""), ("GOARCH", "amd64"),
                   ("GOOS", "linux")] "go" ["install", "github.com/axw/gocov/gocov@v1.1.0"] "",
                 Event.rename "/go/bin/gocov" "/go/bin/gocov-v1.1.0"] }) ∧
    HasSuffix "/go/bin/gocov-v1.1.0" "gocov-v1.1.0" :=
  have key := installTool_installs (goHost "/go" "" ["/go/bin/gocov"] []) gocovTool linuxBuilder
    freshWorld (gopath (goHost "/go" "" ["/go/bin/gocov"] []) freshWorld).2
    (resolvedWorld (goHost "/go" "" ["/go/bin/gocov"] []))
    (linuxBuilder.runInstall (goHost "/go" "" ["/go/bin/gocov"] []) gocovTool "/go/bin"
      (resolvedWorld (goHost "/go" "" ["/go/bin/gocov"] []))).2
    "/go" "/go/bin" "/go/bin/gocov" [] rfl (by decide) (by decide) (by decide) (by decide)
    (by decide) (by decide) (by decide) (by decide) (by decide)
  ⟨key.1, (key.2.2.2 rfl rfl).1 (by decide)⟩


/-- C2 as stated fails, in four ways.  In each, no version-qualified file
exists at a candidate path and `go install` succeeds and leaves the binary
at a candidate path.  When the operating system refuses the rename,
`installTool` returns an error.  With GOPATH `/home/u/[go]` the probe reads
the candidate path as a pattern, misses the binary, and `installTool`
returns an error without a rename.  On a builder with a nil tools map the
binary is renamed and recording the path panics.  On a builder that already
has an entry for the tool nothing is installed or renamed and the entry
stays. -/
theorem installTool_installs_fails :
    ((∀ c ∈ linuxBuilder.binPatterns "/go/bin" "/go"
          (linuxBuilder.toolFilenameWithVersion gocovTool),
        lstat (resolvedWorld (goHost "/go" "" ["/go/bin/gocov"] [gocovRename])).files c
          = false) ∧
      (linuxBuilder.runInstall (goHost "/go" "" ["/go/bin/gocov"] [gocovRename]) gocovTool
          "/go/bin" (resolvedWorld (goHost "/go" "" ["/go/bin/gocov"] [gocovRename]))).1
        = none ∧
      (linuxBuilder.binPatterns "/go/bin" "/go" (linuxBuilder.toolFilename gocovTool)).find?
          (fun c => lstat (linuxBuilder.runInstall
            (goHost "/go" "" ["/go/bin/gocov"] [gocovRename]) gocovTool "/go/bin"
            (resolvedWorld (goHost "/go" "" ["/go/bin/gocov"] [gocovRename]))).2.files c)
        = some "/go/bin/gocov" ∧
      (linuxBuilder.installTool (goHost "/go" "" ["/go/bin/gocov"] [gocovRename]) gocovTool
          freshWorld).1
        = .err ("failed to rename \x27/go/bin/gocov\x27 as \x27/go/bin/gocov-v1.1.0\x27"
            ++ " error: permission denied\n")) ∧
    ((∀ c ∈ linuxBuilder.binPatterns "/home/u/[go]/bin" "/home/u/[go]"
          (linuxBuilder.toolFilenameWithVersion gocovTool),
        lstat (bracketResolvedWorld
          (goHost "/home/u/[go]" "" ["/home/u/[go]/bin/gocov"] [])).files c = false) ∧
      (linuxBuilder.runInstall (goHost "/home/u/[go]" "" ["/home/u/[go]/bin/gocov"] [])
          gocovTool "/home/u/[go]/bin"
          (bracketResolvedWorld (goHost "/home/u/[go]" "" ["/home/u/[go]/bin/gocov"] []))).1
        = none ∧
      (linuxBuilder.binPatterns "/home/u/[go]/bin" "/home/u/[go]"
          (linuxBuilder.toolFilename gocovTool)).find?
          (fun c => lstat (linuxBuilder.runInstall
            (goHost "/home/u/[go]" "" ["/home/u/[go]/bin/gocov"] []) gocovTool
            "/home/u/[go]/bin"
            (bracketResolvedWorld
              (goHost "/home/u/[go]" "" ["/home/u/[go]/bin/gocov"] []))).2.files c)
        = some "/home/u/[go]/bin/gocov" ∧
      (linuxBuilder.installTool (goHost "/home/u/[go]" "" ["/home/u/[go]/bin/gocov"] [])
          gocovTool bracketFreshWorld).1
        = .err "failed to install tool \x27gocov\x27 error: failed to locate \x27gocov\x27\n"
      ∧
      (linuxBuilder.installTool (goHost "/home/u/[go]" "" ["/home/u/[go]/bin/gocov"] [])
          gocovTool bracketFreshWorld).2.2.files
        = bracketFreshWorld.files ++ ["/home/u/[go]/bin/gocov"]) ∧
    ((Builder.installTool (goHost "/go" "" ["/go/bin/gocov"] []) gocovTool
          { goos := "linux", arch := "amd64" } freshWorld).1
        = .panic "assignment to entry in nil map") ∧
    (Builder.installTool (goHost "/go" "" ["/go/bin/gocov"] []) gocovTool
        { goos := "linux", arch := "amd64", tools := some [("gocov", "/opt/gocov")] }
        freshWorld
      = (.ok (), { goos := "linux", arch := "amd64", tools := some [("gocov", "/opt/gocov")] },
          freshWorld)) := by
  decide

/-! ## Idempotence -/

theorem locateBinPath_ok_ne_empty (b : Builder) (gb gp filename path : String)
    (files : List String) (hl : b.locateBinPath gb gp filename files = .ok path) :
    path ≠ "" := by
  unfold Builder.locateBinPath at hl
  split at hl
  · simp at hl
  · split at hl
    · simp at hl
    · rename_i hne
      simp only [Except.ok.injEq] at hl
      rw [← hl]
      exact hne

theorem pathWithVersion_ne_empty (b : Builder) (tool : Tool) (path : String) :
    b.pathWithVersion tool path ≠ "" :=
  Join_two_ne_empty _ _ (Dir_ne_empty path)

theorem mapGet_of_mapSet_eq (tools t : Option (List (String × String))) (k v : String)
    (ht : mapSet tools k v = t) (hsome : t ≠ none) : mapGet t k = v := by
  cases tools with
  | none => simp [mapSet] at ht; exact absurd ht.symm hsome
  | some m => rw [← ht]; exact mapGet_mapSet m k v

/-- After a call of `installTool` that returned nil the tool has a
non-empty entry. -/
theorem installTool_ok_entry (h : Host) (tool : Tool) (b b1 : Builder) (w w1 : World)
    (hok : b.installTool h tool w = (.ok (), b1, w1)) :
    mapGet b1.tools tool.Name ≠ "" := by
  unfold Builder.installTool at hok
  split at hok
  · rename_i hne
    simp only [Prod.mk.injEq, true_and] at hok
    rw [← hok.1]
    exact hne
  · split at hok
    · simp at hok
    · split at hok
      · simp at hok
      · split at hok
        · rename_i path hloc
          split at hok
          · simp at hok
          · rename_i t hset
            simp only [Prod.mk.injEq, true_and] at hok
            rw [← hok.1]
            show mapGet (some t) tool.Name ≠ ""
            rw [mapGet_of_mapSet_eq _ _ _ _ hset (by simp)]
            exact locateBinPath_ok_ne_empty _ _ _ _ _ _ hloc
        · split at hok
          · simp at hok
          · split at hok
            · simp at hok
            · split at hok
              · simp at hok
              · split at hok
                · simp at hok
                · rename_i t hset
                  simp only [Prod.mk.injEq, true_and] at hok
                  rw [← hok.1]
                  show mapGet (some t) tool.Name ≠ ""
                  rw [mapGet_of_mapSet_eq _ _ _ _ hset (by simp)]
                  exact pathWithVersion_ne_empty _ _ _

theorem installTool_cached (h : Host) (tool : Tool) (b : Builder) (w : World)
    (hentry : mapGet b.tools tool.Name ≠ "") :
    b.installTool h tool w = (.ok (), b, w) := by
  unfold Builder.installTool
  simp [hentry]

/-! ## Failure of tool resolution -/

theorem cleanStep_plainComp (r : Bool) (kept : List (List Char)) (c : List Char)
    (hc : plainComp c = true) : filepath.cleanStep r kept c = kept ++ [c] := by
  simp only [plainComp, decide_eq_true_eq] at hc
  obtain ⟨h1, _, h3, h4⟩ := hc
  simp [filepath.cleanStep, h1, h3, h4]

theorem Normal_nil (r : Bool) : Normal r [] :=
  ⟨0, [], by simp, fun _ => rfl, by simp⟩

theorem Normal_snoc_plain (r : Bool) (K : List (List Char)) (c : List Char)
    (hK : Normal r K) (hc : plainComp c = true) : Normal r (K ++ [c]) := by
  obtain ⟨n, rest, hK, hr, hrest⟩ := hK
  refine ⟨n, rest ++ [c], by simp [hK], hr, ?_⟩
  intro x hx
  rcases List.mem_append.mp hx with hx | hx
  · exact hrest x hx
  · simp only [List.mem_singleton] at hx
    rw [hx]; exact hc

theorem Normal_dropLast (r : Bool) (K : List (List Char)) (hK : Normal r K) :
    Normal r K.dropLast := by
  obtain ⟨n, rest, hK, hr, hrest⟩ := hK
  subst hK
  rcases List.eq_nil_or_concat rest with hnil | ⟨init, last, hcat⟩
  · subst hnil
    cases n with
    | zero => simpa using Normal_nil r
    | succ k =>
      refine ⟨k, [], ?_, fun hr1 => by simpa using hr hr1, by simp⟩
      rw [List.append_nil, List.append_nil, List.replicate_succ', List.dropLast_concat]
  · subst hcat
    simp only [List.concat_eq_append] at hrest ⊢
    refine ⟨n, init, ?_, hr, fun c hc => hrest c (by simp [hc])⟩
    rw [← List.append_assoc, List.dropLast_concat]

theorem Normal_getLast_dotdot (r : Bool) (K : List (List Char)) (hK : Normal r K)
    (hlast : K.getLast? = some ['.', '.']) : Normal r (K ++ [['.', '.']]) := by
  obtain ⟨n, rest, hK, hr, hrest⟩ := hK
  subst hK
  rcases List.eq_nil_or_concat rest with hnil | ⟨init, last, hcat⟩
  · subst hnil
    cases n with
    | zero => simp at hlast
    | succ k =>
      refine ⟨k + 2, [], ?_, fun hr1 => by simpa using hr hr1, by simp⟩
      simp only [List.append_nil]
      rw [← List.replicate_succ']
  · subst hcat
    exfalso
    simp only [List.concat_eq_append] at hrest hlast
    rw [← List.append_assoc, List.getLast?_concat] at hlast
    have h1 := hrest last (by simp)
    simp only [Option.some.injEq] at hlast
    rw [hlast] at h1
    revert h1; decide

theorem Normal_cleanStep (r : Bool) (K : List (List Char)) (c : List Char)
    (hc : '/' ∉ c) (hK : Normal r K) : Normal r (filepath.cleanStep r K c) := by
  unfold filepath.cleanStep
  by_cases h1 : c = [] ∨ c = ['.']
  · rw [if_pos h1]; exact hK
  · rw [if_neg h1]
    by_cases h2 : c = ['.', '.']
    · rw [if_pos h2]
      cases hl : K.getLast? with
      | none =>
        have hnil : K = [] := List.getLast?_eq_none_iff.mp hl
        subst hnil
        cases r with
        | true => simpa using Normal_nil true
        | false =>
          simp only [Bool.false_eq_true, if_false, List.nil_append]
          subst h2
          exact ⟨1, [], by simp, by simp, by simp⟩
      | some top =>
        simp only
        by_cases h3 : top = ['.', '.']
        · rw [if_pos h3]
          subst h2 h3
          exact Normal_getLast_dotdot r K hK hl
        · rw [if_neg h3]
          exact Normal_dropLast r K hK
    · rw [if_neg h2]
      refine Normal_snoc_plain r K c hK ?_
      simp only [not_or] at h1
      simp [plainComp, h1.1, h1.2, h2, hc]

theorem Normal_foldl (r : Bool) (comps : List (List Char)) (K : List (List Char))
    (hc : ∀ c ∈ comps, '/' ∉ c) (hK : Normal r K) :
    Normal r (comps.foldl (filepath.cleanStep r) K) := by
  induction comps generalizing K with
  | nil => exact hK
  | cons c cs ih =>
    simp only [List.foldl_cons]
    exact ih _ (fun x hx => hc x (List.mem_cons_of_mem _ hx))
      (Normal_cleanStep r K c (hc c (List.mem_cons_self _ _)) hK)

theorem splitSep_no_sep (cs : List Char) : ∀ c ∈ filepath.splitSep cs, '/' ∉ c := by
  induction cs with
  | nil => simp [filepath.splitSep]
  | cons a as ih =>
    cases hs : filepath.splitSep as with
    | nil => exact absurd hs (splitSep_ne_nil as)
    | cons x xs =>
      rw [hs] at ih
      have e : filepath.splitSep (a :: as)
          = if a = '/' then [] :: x :: xs else (a :: x) :: xs := by
        rw [filepath.splitSep, hs]
      rw [e]
      by_cases ha : a = '/'
      · rw [if_pos ha]
        intro c hc
        rcases List.mem_cons.mp hc with hc | hc
        · rw [hc]; simp
        · exact ih c hc
      · rw [if_neg ha]
        intro c hc
        rcases List.mem_cons.mp hc with hc | hc
        · rw [hc]
          have hx := ih x (List.mem_cons_self _ _)
          simp only [List.mem_cons, not_or]
          exact ⟨fun e => ha e.symm, hx⟩
        · exact ih c (List.mem_cons_of_mem _ hc)

theorem Normal_parsePath (cs : List Char) :
    Normal (filepath.parsePath cs).1 (filepath.parsePath cs).2 := by
  unfold filepath.parsePath
  exact Normal_foldl _ _ _ (splitSep_no_sep cs) (Normal_nil _)

theorem foldl_cleanStep_dotdot (r : Bool) (n k : Nat) (hr : r = true → n = 0) :
    (List.replicate n ['.', '.']).foldl (filepath.cleanStep r) (List.replicate k ['.', '.'])
      = List.replicate (k + n) ['.', '.'] := by
  induction n generalizing k with
  | zero => simp
  | succ m ih =>
    have hrf : r = false := by
      cases r with
      | true => exact absurd (hr rfl) (by simp)
      | false => rfl
    subst hrf
    have step : filepath.cleanStep false (List.replicate k ['.', '.']) ['.', '.']
        = List.replicate (k + 1) ['.', '.'] := by
      cases k with
      | zero => simp [filepath.cleanStep]
      | succ j =>
        have hl : (List.replicate (j + 1) ['.', '.']).getLast? = some ['.', '.'] := by
          rw [List.replicate_succ', List.getLast?_concat]
        simp only [filepath.cleanStep, hl]
        rw [← List.replicate_succ']
        simp
    rw [List.replicate_succ, List.foldl_cons, step, ih (k + 1) (by simp)]
    congr 1
    omega

theorem foldl_cleanStep_plain (r : Bool) (rest acc : List (List Char))
    (hrest : ∀ c ∈ rest, plainComp c = true) :
    rest.foldl (filepath.cleanStep r) acc = acc ++ rest := by
  induction rest generalizing acc with
  | nil => simp
  | cons c cs ih =>
    rw [List.foldl_cons, cleanStep_plainComp r acc c (hrest c (List.mem_cons_self _ _)),
      ih _ (fun x hx => hrest x (List.mem_cons_of_mem _ hx))]
    simp

theorem foldl_cleanStep_Normal (r : Bool) (K : List (List Char)) (hK : Normal r K) :
    K.foldl (filepath.cleanStep r) [] = K := by
  obtain ⟨n, rest, hK, hr, hrest⟩ := hK
  subst hK
  rw [List.foldl_append]
  have h0 := foldl_cleanStep_dotdot r n 0 hr
  simp only [List.replicate_zero, Nat.zero_add] at h0
  rw [h0, foldl_cleanStep_plain r rest _ hrest]

theorem Normal_no_sep (r : Bool) (K : List (List Char)) (hK : Normal r K) :
    ∀ c ∈ K, '/' ∉ c ∧ c ≠ [] := by
  obtain ⟨n, rest, hK, _, hrest⟩ := hK
  subst hK
  intro c hc
  rcases List.mem_append.mp hc with hc | hc
  · rw [List.eq_of_mem_replicate hc]
    decide
  · have := hrest c hc
    simp only [plainComp, decide_eq_true_eq] at this
    exact ⟨this.2.1, this.1⟩

theorem splitSep_joinSep (K : List (List Char)) (hne : K ≠ [])
    (hK : ∀ c ∈ K, '/' ∉ c) : filepath.splitSep (filepath.joinSep K) = K := by
  induction K with
  | nil => exact absurd rfl hne
  | cons x xs ih =>
    cases xs with
    | nil => exact splitSep_plain x (hK x (List.mem_cons_self _ _))
    | cons y ys =>
      show filepath.splitSep (x ++ '/' :: filepath.joinSep (y :: ys)) = _
      rw [splitSep_append_sep, splitSep_plain x (hK x (List.mem_cons_self _ _)),
        ih (by simp) (fun c hc => hK c (List.mem_cons_of_mem _ hc))]
      rfl

theorem joinSep_head (K : List (List Char)) (hK : ∀ c ∈ K, '/' ∉ c ∧ c ≠ []) (hne : K ≠ []) :
    filepath.joinSep K ≠ [] ∧ (filepath.joinSep K).head? ≠ some '/' := by
  cases K with
  | nil => exact absurd rfl hne
  | cons x xs =>
    obtain ⟨hs, hx⟩ := hK x (List.mem_cons_self _ _)
    cases x with
    | nil => exact absurd rfl hx
    | cons a as =>
      have ha : a ≠ '/' := fun e => hs (by simp [e])
      cases xs with
      | nil => simp [filepath.joinSep, ha]
      | cons y ys => simp [filepath.joinSep, ha]

/-- Reading a printed path gives back its elements. -/
theorem parsePath_renderPath (r : Bool) (K : List (List Char)) (hK : Normal r K) :
    filepath.parsePath (filepath.renderPath (r, K)) = (r, K) := by
  by_cases hne : K = []
  · subst hne
    cases r <;> rfl
  · have hsep := Normal_no_sep r K hK
    obtain ⟨hj, hh⟩ := joinSep_head K hsep hne
    have hsplit := splitSep_joinSep K hne (fun c hc => (hsep c hc).1)
    have hfold := foldl_cleanStep_Normal r K hK
    cases r with
    | true =>
      have e : filepath.renderPath (true, K) = '/' :: filepath.joinSep K := by
        simp [filepath.renderPath]
      rw [e]
      unfold filepath.parsePath
      have hs : filepath.splitSep ('/' :: filepath.joinSep K) = [] :: K := by
        have := splitSep_append_sep [] (filepath.joinSep K)
        simpa [hsplit, filepath.splitSep] using this
      rw [hs]
      simp only [List.head?_cons, decide_True, List.foldl_cons]
      have : filepath.cleanStep true [] [] = [] := by simp [filepath.cleanStep]
      rw [this, hfold]
    | false =>
      have e : filepath.renderPath (false, K) = filepath.joinSep K := by
        simp [filepath.renderPath, hj]
      rw [e]
      unfold filepath.parsePath
      rw [hsplit]
      have hd : decide ((filepath.joinSep K).head? = some '/') = false := by
        simp [hh]
      rw [hd, hfold]

theorem parsePath_cleanChars (cs : List Char) :
    filepath.parsePath (filepath.cleanChars cs) = filepath.parsePath cs :=
  parsePath_renderPath _ _ (Normal_parsePath cs)

theorem parsePath_append_sep (cs x : List Char) (hcs : cs ≠ []) :
    filepath.parsePath (cs ++ '/' :: x)
      = ((filepath.parsePath cs).1,
          (filepath.splitSep x).foldl (filepath.cleanStep (filepath.parsePath cs).1)
            (filepath.parsePath cs).2) := by
  unfold filepath.parsePath
  have hh : (cs ++ '/' :: x).head? = cs.head? := by
    cases cs with
    | nil => exact absurd rfl hcs
    | cons a as => rfl
  rw [hh, splitSep_append_sep, List.foldl_append]

/-! ## The directory of a candidate path -/

theorem splitLast_plain (f : List Char) (hf : '/' ∉ f) : filepath.splitLast f = ([], f) := by
  induction f with
  | nil => rfl
  | cons c cs ih =>
    simp only [List.mem_cons, not_or] at hf
    have hc : c ≠ '/' := fun e => hf.1 e.symm
    rw [filepath.splitLast, ih hf.2]
    simp [hc]

theorem splitLast_append_sep (d f : List Char) (hf : '/' ∉ f) :
    filepath.splitLast (d ++ '/' :: f) = (d ++ ['/'], f) := by
  induction d with
  | nil =>
    show filepath.splitLast ('/' :: f) = _
    rw [filepath.splitLast, splitLast_plain f hf]
    simp
  | cons c cs ih =>
    show filepath.splitLast (c :: (cs ++ '/' :: f)) = _
    rw [filepath.splitLast, ih]
    cases h : cs ++ ['/'] with
    | nil => simp at h
    | cons a as => simp [h]

theorem joinSep_snoc (K : List (List Char)) (f : List Char) (hne : K ≠ []) :
    filepath.joinSep (K ++ [f]) = filepath.joinSep K ++ '/' :: f := by
  induction K with
  | nil => exact absurd rfl hne
  | cons x xs ih =>
    cases xs with
    | nil => rfl
    | cons y ys =>
      show x ++ '/' :: filepath.joinSep (y :: ys ++ [f]) = _
      rw [ih (by simp)]
      show _ = (x ++ '/' :: filepath.joinSep (y :: ys)) ++ '/' :: f
      simp

theorem parsePath_sep_end (cs : List Char) (hcs : cs ≠ []) :
    filepath.parsePath (cs ++ ['/']) = filepath.parsePath cs := by
  rw [parsePath_append_sep cs [] hcs]
  simp [filepath.splitSep, filepath.cleanStep]

/-- The directory of the path with the elements `K` and the plain last
element `f` is the path with the elements `K`. -/
theorem Dir_renderPath_snoc (r : Bool) (K : List (List Char)) (f : List Char)
    (hK : Normal r K) (hf : plainComp f = true) :
    filepath.Dir ⟨filepath.renderPath (r, K ++ [f])⟩ = ⟨filepath.renderPath (r, K)⟩ := by
  have hf0 := hf
  simp only [plainComp, decide_eq_true_eq] at hf0
  obtain ⟨hfne, hfs, _, _⟩ := hf0
  unfold filepath.Dir
  congr 1
  by_cases hne : K = []
  · subst hne
    cases r with
    | true =>
      have e : filepath.renderPath (true, [] ++ [f]) = '/' :: f := by
        simp [filepath.renderPath, filepath.joinSep]
      rw [e]
      have := splitLast_append_sep [] f hfs
      simp only [List.nil_append] at this
      rw [this]
      rfl
    | false =>
      have e : filepath.renderPath (false, [] ++ [f]) = f := by
        simp [filepath.renderPath, filepath.joinSep, hfne]
      rw [e, splitLast_plain f hfs]
      rfl
  · have hsep := Normal_no_sep r K hK
    obtain ⟨hj, _⟩ := joinSep_head K hsep hne
    have hY : filepath.renderPath (r, K) ≠ [] := renderPath_ne_nil _
    have e : filepath.renderPath (r, K ++ [f]) = filepath.renderPath (r, K) ++ '/' :: f := by
      cases r with
      | true => simp [filepath.renderPath, joinSep_snoc K f hne]
      | false => simp [filepath.renderPath, joinSep_snoc K f hne, hj]
    rw [e, splitLast_append_sep _ f hfs]
    show filepath.cleanChars (filepath.renderPath (r, K) ++ ['/']) = _
    unfold filepath.cleanChars
    rw [parsePath_sep_end _ hY, parsePath_renderPath r K hK]

/-- The candidate paths are cleaned paths: joining elements of which one
before the last is not empty cleans the joined string. -/
theorem Join_snoc (pre : List String)
    (hpre : ∃ e ∈ pre, e ≠ "") :
    ∃ S : List Char, S ≠ [] ∧
      ∀ y : String, filepath.Join (pre ++ [y]) = ⟨filepath.cleanChars (S ++ '/' :: y.data)⟩ := by
  induction pre with
  | nil => obtain ⟨e, he, _⟩ := hpre; simp at he
  | cons e es ih =>
    by_cases he : e = ""
    · subst he
      have hes : ∃ e ∈ es, e ≠ "" := by
        obtain ⟨a, ha, hne⟩ := hpre
        rcases List.mem_cons.mp ha with h | h
        · exact absurd h hne
        · exact ⟨a, h, hne⟩
      obtain ⟨S, hS, hJ⟩ := ih hes
      refine ⟨S, hS, fun y => ?_⟩
      rw [← hJ y]
      simp [filepath.Join]
    · have hjs : ∀ (l : List String) (a y : String),
          filepath.joinStrings (a :: l ++ [y])
            = filepath.joinStrings (a :: l) ++ '/' :: y.data := by
        intro l
        induction l with
        | nil => intro a y; rfl
        | cons b bs ihl =>
          intro a y
          show a.data ++ '/' :: filepath.joinStrings (b :: bs ++ [y]) = _
          rw [ihl b y]
          show _ = (a.data ++ '/' :: filepath.joinStrings (b :: bs)) ++ '/' :: y.data
          simp
      refine ⟨filepath.joinStrings (e :: es), ?_, fun y => ?_⟩
      · have hd : e.data ≠ [] := String_data_ne_nil e he
        cases es with
        | nil => exact hd
        | cons b bs =>
          show e.data ++ '/' :: filepath.joinStrings (b :: bs) ≠ []
          simp
      · show filepath.Join (e :: (es ++ [y])) = _
        rw [filepath.Join, if_neg he]
        congr 2
        exact hjs es e y

/-- Replacing the plain last element of a joined path: the join of the
directory of `Join (pre ++ [f])` with `g` is `Join (pre ++ [g])`. -/
theorem Join_Dir_Join (pre : List String) (f g : String) (hpre : ∃ e ∈ pre, e ≠ "")
    (hf : plainElem f = true) :
    filepath.Join [filepath.Dir (filepath.Join (pre ++ [f])), g]
      = filepath.Join (pre ++ [g]) := by
  obtain ⟨S, hS, hJ⟩ := Join_snoc pre hpre
  have hfc : plainComp f.data = true := hf
  have hfs : '/' ∉ f.data := by
    simp only [plainComp, decide_eq_true_eq] at hfc
    exact hfc.2.1
  have hpf : filepath.parsePath (S ++ '/' :: f.data)
      = ((filepath.parsePath S).1, (filepath.parsePath S).2 ++ [f.data]) := by
    rw [parsePath_append_sep S f.data hS, splitSep_plain f.data hfs]
    simp only [List.foldl_cons, List.foldl_nil]
    rw [cleanStep_plainComp _ _ _ hfc]
  have hD : filepath.Dir (filepath.Join (pre ++ [f]))
      = ⟨filepath.renderPath (filepath.parsePath S)⟩ := by
    rw [hJ f]
    unfold filepath.cleanChars
    rw [hpf]
    exact Dir_renderPath_snoc _ _ _ (Normal_parsePath S) hfc
  rw [Join_two _ g (Dir_ne_empty _), hD, hJ g]
  congr 1
  unfold filepath.cleanChars
  congr 1
  rw [parsePath_append_sep _ g.data (renderPath_ne_nil _),
    parsePath_renderPath _ _ (Normal_parsePath S), parsePath_append_sep S g.data hS]

theorem binPatterns_eq_map (b : Builder) (gb gp x : String) :
    b.binPatterns gb gp x = (b.binBases gb gp).map (fun pre => filepath.Join (pre ++ [x])) :=
  rfl

theorem binBases_nonempty (b : Builder) (gb gp : String) (hgb : gb ≠ "") :
    ∀ pre ∈ b.binBases gb gp, ∃ e ∈ pre, e ≠ "" := by
  intro pre hpre
  simp only [Builder.binBases, List.mem_cons, List.mem_singleton, List.not_mem_nil,
    or_false] at hpre
  rcases hpre with h | h | h | h <;> subst h
  · exact ⟨"bin", by simp, by decide⟩
  · exact ⟨"bin", by simp, by decide⟩
  · exact ⟨gb, by simp, hgb⟩
  · exact ⟨gb, by simp, hgb⟩

/-- The rename target of a candidate path for the plain name `f` is the
candidate path for `g` with the same directory elements. -/
theorem pathWithVersion_mem (b : Builder) (tool : Tool) (gb gp p : String) (hgb : gb ≠ "")
    (hf : plainElem (b.toolFilename tool) = true)
    (hp : p ∈ b.binPatterns gb gp (b.toolFilename tool)) :
    b.pathWithVersion tool p ∈ b.binPatterns gb gp (b.toolFilenameWithVersion tool) := by
  rw [binPatterns_eq_map] at hp ⊢
  obtain ⟨pre, hpre, rfl⟩ := List.mem_map.mp hp
  refine List.mem_map.mpr ⟨pre, hpre, ?_⟩
  unfold Builder.pathWithVersion
  exact (Join_Dir_Join pre _ _ (binBases_nonempty b gb gp hgb pre hpre) hf).symm

theorem binPatterns_clean (b : Builder) (gb gp x c : String) (hgb : gb ≠ "")
    (hc : c ∈ b.binPatterns gb gp x) : ∃ cs, c = ⟨filepath.cleanChars cs⟩ := by
  rw [binPatterns_eq_map] at hc
  obtain ⟨pre, hpre, rfl⟩ := List.mem_map.mp hc
  obtain ⟨S, _, hJ⟩ := Join_snoc pre (binBases_nonempty b gb gp hgb pre hpre)
  exact ⟨_, hJ x⟩

theorem sameEntry_clean (a c : List Char)
    (hs : sameEntry ⟨filepath.cleanChars a⟩ ⟨filepath.cleanChars c⟩ = true) :
    filepath.cleanChars a = filepath.cleanChars c := by
  simp only [sameEntry, decide_eq_true_eq, parsePath_cleanChars] at hs
  unfold filepath.cleanChars
  rw [hs]

theorem Join_bin_ne_empty (s : String) : filepath.Join [s, "bin"] ≠ "" := by
  by_cases hs : s = ""
  · rw [hs]; decide
  · exact Join_two_ne_empty _ _ hs

theorem gobin_ne_empty (h : Host) (gp gb : String) (w w1 : World)
    (hg : gobin h gp w = (.ok gb, w1)) : gb ≠ "" := by
  unfold gobin at hg
  split at hg
  · simp at hg
  · rename_i out wa heq
    by_cases ho : out = ""
    · by_cases hgpe : gp = ""
      · simp [ho, hgpe] at hg
      · simp only [ho, hgpe, if_true, if_false] at hg
        split at hg
        · simp at hg
        · simp only [Prod.mk.injEq, Except.ok.injEq] at hg
          rw [← hg.1]
          exact Join_bin_ne_empty _
    · simp only [ho, if_false] at hg
      split at hg
      · simp at hg
      · simp only [Prod.mk.injEq, Except.ok.injEq] at hg
        rw [← hg.1]
        exact ho

/-! ## The probe after an installation -/

theorem sameEntry_refl (p : String) : sameEntry p p = true := by
  simp [sameEntry]

theorem lstat_after_rename (F : List String) (p q c : String)
    (hl : lstat (without (without F p) q ++ [q]) c = true) :
    lstat F c = true ∨ sameEntry q c = true := by
  simp only [lstat, without, decide_eq_true_eq, List.any_append, List.any_cons, List.any_nil,
    Bool.or_false, Bool.or_eq_true, List.any_eq_true, List.mem_filter] at hl ⊢
  obtain ⟨hne, hx⟩ := hl
  rcases hx with ⟨x, ⟨⟨hxF, _⟩, _⟩, hxc⟩ | hqc
  · exact Or.inl ⟨hne, x, hxF, hxc⟩
  · exact Or.inr hqc

theorem lstat_renamed (F : List String) (p q : String) (hq : q ≠ "") :
    lstat (without (without F p) q ++ [q]) q = true := by
  simp [lstat, hq, sameEntry_refl]

/-- After the rename of the candidate path `p` of the plain unqualified
name, the probe for the version-qualified name finds the rename target,
when no version-qualified file was at a candidate path before. -/
theorem probe_after_rename (b : Builder) (tool : Tool) (gb gp p : String) (F : List String)
    (hgb : gb ≠ "") (hf : plainElem (b.toolFilename tool) = true)
    (hp : p ∈ b.binPatterns gb gp (b.toolFilename tool))
    (hnone : ∀ c ∈ b.binPatterns gb gp (b.toolFilenameWithVersion tool), lstat F c = false) :
    (b.binPatterns gb gp (b.toolFilenameWithVersion tool)).find?
        (fun c => lstat (without (without F p) (b.pathWithVersion tool p)
          ++ [b.pathWithVersion tool p]) c)
      = some (b.pathWithVersion tool p) := by
  have hmem := pathWithVersion_mem b tool gb gp p hgb hf hp
  have hq := lstat_renamed F p _ (pathWithVersion_ne_empty b tool p)
  cases hfind : (b.binPatterns gb gp (b.toolFilenameWithVersion tool)).find?
      (fun c => lstat (without (without F p) (b.pathWithVersion tool p)
        ++ [b.pathWithVersion tool p]) c) with
  | none =>
    rw [List.find?_eq_none] at hfind
    exact absurd hq (by simpa using hfind _ hmem)
  | some c =>
    have hcm := List.mem_of_find?_eq_some hfind
    have hcl : lstat (without (without F p) (b.pathWithVersion tool p)
        ++ [b.pathWithVersion tool p]) c = true := by simpa using List.find?_some hfind
    rcases lstat_after_rename F p _ c hcl with h1 | h2
    · rw [hnone c hcm] at h1
      exact absurd h1 (by simp)
    · obtain ⟨x, hx⟩ := binPatterns_clean b gb gp _ _ hgb hmem
      obtain ⟨y, hy⟩ := binPatterns_clean b gb gp _ _ hgb hcm
      rw [hx, hy] at h2
      have := sameEntry_clean x y h2
      rw [hx, hy, this]

theorem locateBinPath_plain (b : Builder) (gb gp filename : String) (files : List String)
    (hp : ∀ c ∈ b.binPatterns gb gp filename, filepath.hasMeta c = false) :
    (∀ path, b.locateBinPath gb gp filename files = .ok path →
      (b.binPatterns gb gp filename).find? (fun c => lstat files c) = some path) ∧
    (∀ e, b.locateBinPath gb gp filename files = .error e →
      ∀ c ∈ b.binPatterns gb gp filename, lstat files c = false) := by
  cases hf : (b.binPatterns gb gp filename).find? (fun c => lstat files c) with
  | none =>
    have hnone : ∀ c ∈ b.binPatterns gb gp filename, lstat files c = false := by
      rw [List.find?_eq_none] at hf
      intro c hc
      simpa using hf c hc
    rw [locateBinPath_none b gb gp filename files hp hnone]
    exact ⟨fun path h => by simp at h, fun _ _ => hnone⟩
  | some p =>
    rw [locateBinPath_found b gb gp filename files p hp hf]
    exact ⟨fun path h => by simp at h; rw [h], fun e h => by simp at h⟩

/-- The two ways in which `installTool` returns nil for a tool without
entry: the probe found the version-qualified file, or the tool was
installed and the located binary renamed. -/
theorem installTool_ok_cases (h : Host) (tool : Tool) (b b1 : Builder) (w wa wb w1 : World)
    (gp gb : String) (hentry : mapGet b.tools tool.Name = "")
    (hgp : gopath h w = (.ok gp, wa)) (hgb : gobin h gp wa = (.ok gb, wb))
    (hok : b.installTool h tool w = (.ok (), b1, w1)) :
    (∃ path, b.locateBinPath gb gp (b.toolFilenameWithVersion tool) wb.files = .ok path ∧
      w1 = wb ∧ mapGet b1.tools tool.Name = path) ∨
    (∃ e wc path,
      b.locateBinPath gb gp (b.toolFilenameWithVersion tool) wb.files = .error e ∧
      b.runInstall h tool gb wb = (none, wc) ∧
      b.locateBinPath gb gp (b.toolFilename tool) wc.files = .ok path ∧
      w1.files = without (without wc.files path) (b.pathWithVersion tool path)
        ++ [b.pathWithVersion tool path] ∧
      mapGet b1.tools tool.Name = b.pathWithVersion tool path) := by
  unfold Builder.installTool at hok
  rw [hgp] at hok
  simp only [hentry, ne_eq, not_true_eq_false, if_false, hgb] at hok
  split at hok
  · rename_i path hloc
    left
    split at hok
    · simp at hok
    · rename_i t hset
      simp only [Prod.mk.injEq, true_and] at hok
      refine ⟨path, hloc, hok.2.symm, ?_⟩
      rw [← hok.1]
      exact mapGet_of_mapSet_eq _ _ _ _ hset (by simp)
  · rename_i e hloc
    right
    split at hok
    · simp at hok
    · rename_i wc hinst
      split at hok
      · simp at hok
      · rename_i path hloc2
        split at hok
        · simp at hok
        · rename_i w4 hren
          split at hok
          · simp at hok
          · rename_i t hset
            simp only [Prod.mk.injEq, true_and] at hok
            refine ⟨e, wc, path, hloc, hinst, hloc2, ?_, ?_⟩
            · rw [← hok.2]
              unfold os.Rename at hren
              split at hren
              · simp at hren
              · split at hren
                · simp only [Prod.mk.injEq, true_and] at hren
                  rw [← hren]
                · simp at hren
            · rw [← hok.1]
              exact mapGet_of_mapSet_eq _ _ _ _ hset (by simp)

/-! ## Idempotence of tool resolution -/

/-- C6, amended: after a call of `installTool` that returned nil, a further
call for the same tool on the same builder returns nil and changes neither
the builder nor the world.  And when the first call was made without an
entry for the tool, a call on a fresh builder for the same target (tools
map allocated, no entry for the tool) over the resulting filesystem returns
nil, records the path recorded by the first call and, after the resolution
of GOPATH and GOBIN, attempts nothing, provided that GOPATH and GOBIN
resolve as in the first call without changing the filesystem, that no
candidate path contains a magic character of glob patterns, that the file
name of the tool is a plain path element, and that the install step of the
first call left no version-qualified file at a candidate path. -/
theorem installTool_idempotent (h : Host) (tool : Tool) (b b1 : Builder) (w w1 : World)
    (hok : b.installTool h tool w = (.ok (), b1, w1)) :
    b1.installTool h tool w1 = (.ok (), b1, w1) ∧
    ∀ (f : Builder) (m : List (String × String)) (gp gb : String) (wa wb w2 w3 : World),
      mapGet b.tools tool.Name = "" →
      gopath h w = (.ok gp, wa) → gobin h gp wa = (.ok gb, wb) →
      f.goos = b.goos → f.arch = b.arch →
      f.tools = some m → mapGet f.tools tool.Name = "" →
      gopath h w1 = (.ok gp, w2) → gobin h gp w2 = (.ok gb, w3) → w3.files = w1.files →
      (∀ c ∈ b.binPatterns gb gp (b.toolFilenameWithVersion tool),
        filepath.hasMeta c = false) →
      (∀ c ∈ b.binPatterns gb gp (b.toolFilename tool), filepath.hasMeta c = false) →
      plainElem (b.toolFilename tool) = true →
      (∀ wc, b.runInstall h tool gb wb = (none, wc) →
        ∀ c ∈ b.binPatterns gb gp (b.toolFilenameWithVersion tool),
          lstat wc.files c = false) →
      f.installTool h tool w1
          = (.ok (), { f with tools := mapSet f.tools tool.Name (mapGet b1.tools tool.Name) },
              w3) ∧
        mapGet (mapSet f.tools tool.Name (mapGet b1.tools tool.Name)) tool.Name
          = mapGet b1.tools tool.Name ∧
        w3.trace = w1.trace ++ resolveEvents h gp gb ∧
        (∀ e ∈ resolveEvents h gp gb, e.isInstall h = false) := by
  refine ⟨installTool_cached h tool b1 w1 (installTool_ok_entry h tool b b1 w w1 hok), ?_⟩
  intro f m gp gb wa wb w2 w3 hentry hgp hgb hgoos harch hft hfe hgp2 hgb2 hfiles hmetaV
    hmetaU hplain hpost
  have hgbne := gobin_ne_empty h gp gb wa wb hgb
  have hpat : ∀ x, f.binPatterns gb gp x = b.binPatterns gb gp x := by
    intro x
    simp [Builder.binPatterns, hgoos, harch]
  have hfwv : f.toolFilenameWithVersion tool = b.toolFilenameWithVersion tool := by
    simp [Builder.toolFilenameWithVersion, hgoos]
  have hfound : (f.binPatterns gb gp (f.toolFilenameWithVersion tool)).find?
      (fun c => lstat w3.files c) = some (mapGet b1.tools tool.Name) := by
    rw [hpat, hfwv, hfiles]
    rcases installTool_ok_cases h tool b b1 w wa wb w1 gp gb hentry hgp hgb hok with
      ⟨path, hloc, hw1, hrec⟩ | ⟨e, wc, path, _, hinst, hloc2, hw1, hrec⟩
    · rw [hrec, hw1]
      exact (locateBinPath_plain b gb gp _ wb.files hmetaV).1 path hloc
    · rw [hrec, hw1]
      have hp := (locateBinPath_plain b gb gp _ wc.files hmetaU).1 path hloc2
      exact probe_after_rename b tool gb gp path wc.files hgbne hplain
        (List.mem_of_find?_eq_some hp) (hpost wc hinst)
  have hmetaF : ∀ c ∈ f.binPatterns gb gp (f.toolFilenameWithVersion tool),
      filepath.hasMeta c = false := by
    rw [hpat, hfwv]; exact hmetaV
  refine ⟨installTool_fast h tool f w1 w2 w3 gp gb _ m hft hfe hgp2 hgb2 hmetaF hfound,
    ?_, resolve_trace h w1 w2 w3 gp gb hgp2 hgb2, resolveEvents_not_install h gp gb⟩
  rw [hft]
  exact mapGet_mapSet m tool.Name _

/-- C6 after the installation of gocov: the same builder does nothing, and
a fresh builder finds `/go/bin/gocov-v1.1.0` by the probe alone. -/
theorem installTool_idempotent_witness :
    linuxBuilder.installTool gocovHost gocovTool freshWorld
      = (.ok (), installedBuilder, installedWorld) ∧
    installedBuilder.installTool gocovHost gocovTool installedWorld
      = (.ok (), installedBuilder, installedWorld) ∧
    linuxBuilder.installTool gocovHost gocovTool installedWorld
      = (.ok (), installedBuilder,
          { installedWorld with
            trace := installedWorld.trace ++ resolveEvents gocovHost "/go" "/go/bin" }) :=
  have hok : linuxBuilder.installTool gocovHost gocovTool freshWorld
      = (.ok (), installedBuilder, installedWorld) := by decide
  have key := installTool_idempotent gocovHost gocovTool linuxBuilder installedBuilder
    freshWorld installedWorld hok
  ⟨hok, key.1,
    (key.2 linuxBuilder [] "/go" "/go/bin" (gopath gocovHost freshWorld).2
      (resolvedWorld gocovHost) (gopath gocovHost installedWorld).2
      { installedWorld with
        trace := installedWorld.trace ++ resolveEvents gocovHost "/go" "/go/bin" }
      (by decide) (by decide) (by decide) rfl rfl rfl (by decide) (by decide) (by decide) rfl
      (by decide) (by decide) (by decide)
      (fun wc hwc => by
        have e : wc = (linuxBuilder.runInstall gocovHost gocovTool "/go/bin"
            (resolvedWorld gocovHost)).2 := (congrArg Prod.snd hwc).symm
        subst e
        decide)).1⟩

/-- C6 as stated fails for the fresh builder, in five ways; in each the
first call returns nil and the second is made on a builder with an empty
tools map over the world that the first leaves.  After a first call that
returned nil because the builder already had an entry for gocov, the second
runs `go install` and records another path.  For a tool whose name contains
a separator, and for one whose name contains a bracket, the second call
runs `go install` and renames again.  When `go install` also leaves a
version-qualified file at an earlier candidate path, the second call
records that path instead.  When `go env GOPATH` answers differently after
the installation, the second call returns an error. -/
theorem installTool_idempotent_fails :
    ((cachedBuilder.installTool gocovHost gocovTool freshWorld).1 = .ok () ∧
      mapGet (cachedBuilder.installTool gocovHost gocovTool freshWorld).2.1.tools "gocov"
        = "/opt/gocov" ∧
      (secondCall gocovHost gocovTool cachedBuilder linuxBuilder freshWorld).1 = .ok () ∧
      mapGet (secondCall gocovHost gocovTool cachedBuilder linuxBuilder freshWorld).2.1.tools
        "gocov" = "/go/bin/gocov-v1.1.0" ∧
      (secondEvents gocovHost gocovTool cachedBuilder linuxBuilder freshWorld).any
        (fun e => e.isInstall gocovHost) = true) ∧
    ((linuxBuilder.installTool (goHost "/go" "" ["/go/bin/x/gocov"] []) slashTool
          freshWorld).1 = .ok () ∧
      (secondCall (goHost "/go" "" ["/go/bin/x/gocov"] []) slashTool linuxBuilder linuxBuilder
          freshWorld).1 = .ok () ∧
      (secondEvents (goHost "/go" "" ["/go/bin/x/gocov"] []) slashTool linuxBuilder
          linuxBuilder freshWorld).any
        (fun e => e.isInstall (goHost "/go" "" ["/go/bin/x/gocov"] [])) = true) ∧
    ((linuxBuilder.installTool gocovHost bracketTool freshWorld).1 = .ok () ∧
      (secondCall gocovHost bracketTool linuxBuilder linuxBuilder freshWorld).1 = .ok () ∧
      (secondEvents gocovHost bracketTool linuxBuilder linuxBuilder freshWorld).any
        (fun e => e.isInstall gocovHost) = true) ∧
    ((linuxBuilder.installTool strayHost gocovTool gobinWorld).1 = .ok () ∧
      mapGet (linuxBuilder.installTool strayHost gocovTool gobinWorld).2.1.tools "gocov"
        = "/gobin/gocov-v1.1.0" ∧
      (secondCall strayHost gocovTool linuxBuilder linuxBuilder gobinWorld).1 = .ok () ∧
      mapGet (secondCall strayHost gocovTool linuxBuilder linuxBuilder gobinWorld).2.1.tools
        "gocov" = "/go/bin/gocov-v1.1.0") ∧
    ((linuxBuilder.installTool driftHost gocovTool freshWorld).1 = .ok () ∧
      (secondCall driftHost gocovTool linuxBuilder linuxBuilder freshWorld).1
        = .err "failed to install tool \x27gocov\x27 error: failed to locate \x27gocov\x27\n")
    := by
  decide

/-! ## Directory listings -/

theorem globDir_eq (files : List String) (dir file : String) (mt : String → Bool)
    (hM : ∀ n, filepath.Match file n = .ok (mt n)) (acc : List String) :
    filepath.globDir files dir file acc
      = .ok (acc ++ ((readDirNames files dir).filter mt).map
          (fun n => filepath.Join [dir, n])) := by
  unfold filepath.globDir
  generalize readDirNames files dir = names
  induction names generalizing acc with
  | nil => simp
  | cons n ns ih =>
    rw [List.foldl_cons]
    simp only [hM n]
    cases hmt : mt n with
    | true =>
      simp only [List.filter_cons, hmt, if_true, List.map_cons]
      rw [ih (acc ++ [filepath.Join [dir, n]])]
      simp
    | false =>
      simp only [List.filter_cons, hmt, Bool.false_eq_true, if_false]
      exact ih acc

theorem nameIn_singleton (dir q : String) :
    readDirNames [q] dir = (nameIn dir q).toList := by
  unfold readDirNames
  cases hn : nameIn dir q with
  | none => simp [List.filterMap, hn, dedupStrings, sortStrings]
  | some n => simp [List.filterMap, hn, dedupStrings, sortStrings, insertSorted]

theorem matchesPattern_glob (pat dir file q : String) (mt : String → Bool)
    (hG : ∀ files, filepath.Glob files pat = filepath.globDir files dir file [])
    (hM : ∀ n, filepath.Match file n = .ok (mt n)) :
    matchesPattern pat q = true ↔ ∃ n, nameIn dir q = some n ∧ mt n = true := by
  unfold matchesPattern
  rw [hG, globDir_eq [q] dir file mt hM, nameIn_singleton]
  cases hn : nameIn dir q with
  | none => simp
  | some n =>
    cases hmt : mt n with
    | true => simp [List.filter_cons, hmt]
    | false => simp [List.filter_cons, hmt]

theorem matchesPattern_glob_Match (pat dir file q : String) (mt : String → Bool)
    (hG : ∀ files, filepath.Glob files pat = filepath.globDir files dir file [])
    (hM : ∀ n, filepath.Match file n = .ok (mt n)) :
    matchesPattern pat q = true ↔
      ∃ n, nameIn dir q = some n ∧ filepath.Match file n = .ok true := by
  rw [matchesPattern_glob pat dir file q mt hG hM]
  constructor
  · rintro ⟨n, hn, hmt⟩
    exact ⟨n, hn, by rw [hM n, hmt]⟩
  · rintro ⟨n, hn, hmt⟩
    refine ⟨n, hn, ?_⟩
    rw [hM n] at hmt
    simpa using hmt

theorem matchesPattern_plain (pat q : String) (hp : filepath.hasMeta pat = false)
    (hne : pat ≠ "") : matchesPattern pat q = true ↔ sameEntry q pat = true := by
  unfold matchesPattern
  rw [Glob_plain [q] pat hp]
  cases hs : sameEntry q pat with
  | true => simp [lstat, hne, hs]
  | false => simp [lstat, hne, hs]

/-- A path is cleaned exactly when it is an entry of the working directory
whose name matches `*cover.out` or `*.log`, the file
`cmd/go-mage/versioninfo.json`, an entry of `cmd/go-mage` whose name matches
`*.syso`, or an entry of `build` whose name matches `go-mage_*`. -/
theorem cleaned_iff (q : String) :
    cleaned q = true ↔
      (∃ n, nameIn "." q = some n ∧ filepath.Match "*cover.out" n = .ok true) ∨
      (∃ n, nameIn "." q = some n ∧ filepath.Match "*.log" n = .ok true) ∨
      sameEntry q "./cmd/go-mage/versioninfo.json" = true ∨
      (∃ n, nameIn "./cmd/go-mage" q = some n ∧ filepath.Match "*.syso" n = .ok true) ∨
      (∃ n, nameIn "./build" q = some n ∧ filepath.Match "go-mage_*" n = .ok true) := by
  unfold cleaned cleanupFiles
  simp only [List.any_cons, List.any_nil, Bool.or_false, Bool.or_eq_true]
  rw [matchesPattern_glob_Match "*cover.out" "." "*cover.out" q
      (fun n => filepath.matchChunks
        (filepath.toChunks ((filepath.scanTerms .top "*cover.out".data).getD [])) n.data)
      (fun _ => rfl) (fun _ => rfl),
    matchesPattern_glob_Match "*.log" "." "*.log" q
      (fun n => filepath.matchChunks
        (filepath.toChunks ((filepath.scanTerms .top "*.log".data).getD [])) n.data)
      (fun _ => rfl) (fun _ => rfl),
    matchesPattern_plain "./cmd/go-mage/versioninfo.json" q (by decide) (by decide),
    matchesPattern_glob_Match "./cmd/go-mage/*.syso" "./cmd/go-mage" "*.syso" q
      (fun n => filepath.matchChunks
        (filepath.toChunks ((filepath.scanTerms .top "*.syso".data).getD [])) n.data)
      (fun _ => rfl) (fun _ => rfl),
    matchesPattern_glob_Match "./build/go-mage_*" "./build" "go-mage_*" q
      (fun n => filepath.matchChunks
        (filepath.toChunks ((filepath.scanTerms .top "go-mage_*".data).getD [])) n.data)
      (fun _ => rfl) (fun _ => rfl)]

/-! ## The loops of `Clean` -/

end GoMage
